import Mathlib

/-!
Verification of the LevelZap directory-flattening tool (`levelzap.py`).

The development shallowly embeds the parts of the program the claims are
about:

* `decChars` — Python's `str(i)` decimal rendering used by
  `resolve_conflict_path` when it builds candidate names `base_i.ext`;
* `resolveConflictPath` — `resolve_conflict_path` (levelzap.py:182-199);
* `resolveDuplicateFile` — `resolve_duplicate_file` (levelzap.py:265-297);
* an association-list filesystem model with the action semantics of
  `perform_action` (levelzap.py:201-259) and the reverse-replay loop of
  `revert_log` (levelzap.py:538-570);
* the log serialization / integrity hash scheme (levelzap.py:476-490,
  518-531, 612-626) with the digest abstracted as an injective function;
* the recursive flatten move phase (levelzap.py:331-415) for the
  `rename` duplicate strategy.

Paths are modelled as lists of name components, names as lists of
characters (the bytes Python compares when it tests path equality).
-/

namespace LevelZap

/-! ### Decimal rendering of naturals (Python's `str(i)`) -/

/-- Decimal digit character for `d < 10` (as in Python's `str`). -/
def digitCh : Nat → Char
  | 0 => '0'
  | 1 => '1'
  | 2 => '2'
  | 3 => '3'
  | 4 => '4'
  | 5 => '5'
  | 6 => '6'
  | 7 => '7'
  | 8 => '8'
  | _ => '9'

/-- Fuelled decimal rendering; `fuel` bounds the number of digits, so the
recursion is structural and kernel-reducible. -/
def decCharsAux : Nat → Nat → List Char
  | 0, _ => []
  | fuel + 1, n =>
      if n < 10 then [digitCh n]
      else decCharsAux fuel (n / 10) ++ [digitCh (n % 10)]

/-- Decimal rendering of a natural number, most significant digit first,
exactly like Python's `str(i)`. -/
def decChars (n : Nat) : List Char :=
  decCharsAux (n + 1) n

/-- Numeric value of a decimal digit character; inverse of `digitCh`. -/
def digitVal (c : Char) : Nat :=
  if c = '0' then 0 else if c = '1' then 1 else if c = '2' then 2
  else if c = '3' then 3 else if c = '4' then 4 else if c = '5' then 5
  else if c = '6' then 6 else if c = '7' then 7 else if c = '8' then 8
  else 9

/-- Value of a digit string (used only to invert `decChars`). -/
def decVal (l : List Char) : Nat :=
  l.foldl (fun a c => a * 10 + digitVal c) 0

/-! ### Paths -/

/-- A path component (file or directory name), as the character sequence
Python compares for equality. -/
abbrev Name := List Char

/-- A filesystem path: the list of its name components below the
filesystem root. -/
abbrev Path := List Name

/-! ### `resolve_conflict_path` (levelzap.py:182-199)

```
def resolve_conflict_path(path: Path, simulated_files=None) -> Path:
    def path_would_exist(p):
        return p.exists() or (simulated_files and str(p) in simulated_files)
    if not path_would_exist(path):
        return path
    base = path.stem
    ext = path.suffix
    parent = path.parent
    i = 1
    while True:
        new_name = f"(base)_(i)(ext)"
        new_path = parent / new_name
        if not path_would_exist(new_path):
            return new_path
        i += 1
```

The disk is passed explicitly as the list of existing paths; the Python
`while True` loop is realised as a fuelled first-fit search together with
a pigeonhole proof that, within `disk.length + claimed.length + 1`
candidates, an unused one is always found, so the fuelled search provably
computes the same index the unbounded loop returns. -/

/-- Python `p.exists() or (simulated_files and str(p) in simulated_files)`:
an empty or absent claimed-set is falsy. -/
def pathWouldExist (disk : List Path) (sims : Option (List Path)) (p : Path) : Bool :=
  disk.contains p ||
    (match sims with
     | none => false
     | some l => l.contains p)

/-- Splitting of a final component into `path.stem` and `path.suffix`
following `pathlib`: the suffix starts at the last dot, provided that dot
is neither the first nor the last character of the name. -/
def splitStemExt (name : Name) : Name × Name :=
  match (List.range name.length).reverse.find? (fun i => name.get? i = some '.') with
  | none => (name, [])
  | some i =>
      if 0 < i ∧ i < name.length - 1 then (name.take i, name.drop i)
      else (name, [])

/-- Candidate path `parent / f"(stem)_(i)(ext)"`. -/
def renderCand (parent : Path) (stem ext : Name) (i : Nat) : Path :=
  parent ++ [stem ++ ['_'] ++ decChars i ++ ext]

/-- First-fit search for an unused index, starting at `start`, with
explicit fuel; with sufficient fuel this computes exactly the index on
which the Python `while True` loop of `resolve_conflict_path` returns. -/
def searchFree (used : Nat → Bool) : Nat → Nat → Nat
  | start, 0 => start
  | start, fuel + 1 => if used start then searchFree used (start + 1) fuel else start

/-- The least index `i ≥ 1` (computed by first-fit, as the loop does) such
that `parent / stem_i ++ ext` neither exists on disk nor is claimed. -/
def leastFreeIndex (disk : List Path) (sims : Option (List Path))
    (parent : Path) (stem ext : Name) : Nat :=
  searchFree (fun i => pathWouldExist disk sims (renderCand parent stem ext i))
    1 (disk.length + (sims.getD []).length + 1)

/-- Embedding of `resolve_conflict_path` (levelzap.py:182-199). -/
def resolveConflictPath (disk : List Path) (sims : Option (List Path))
    (path : Path) : Path :=
  if pathWouldExist disk sims path then
    let parent := path.dropLast
    let se := splitStemExt (path.getLastD [])
    renderCand parent se.1 se.2 (leastFreeIndex disk sims parent se.1 se.2)
  else path

/-! ### `resolve_duplicate_file` (levelzap.py:265-297)

```
def resolve_duplicate_file(existing_path, new_path, strategy, output_manager=None):
    if strategy == "overwrite":
        return new_path
    elif strategy == "rename":
        return resolve_conflict_path(existing_path, None)
    elif strategy in ["newest", "oldest", "largest", "smallest"]:
        try:
            existing_stat = existing_path.stat()
            new_stat = new_path.stat()
            if strategy == "newest":
                keep_existing = existing_stat.st_mtime >= new_stat.st_mtime
            elif strategy == "oldest":
                keep_existing = existing_stat.st_mtime <= new_stat.st_mtime
            elif strategy == "largest":
                keep_existing = existing_stat.st_size >= new_stat.st_size
            elif strategy == "smallest":
                keep_existing = existing_stat.st_size <= new_stat.st_size
            if keep_existing:
                return None
            else:
                return existing_path
        except OSError as e:
            ...warning...
            return resolve_conflict_path(existing_path, None)
    return resolve_conflict_path(existing_path, None)
```

`stat()` is modelled by a lookup `statOf : Path → Option FileStat`; `none`
is the `OSError` case. The returned `Option Path` mirrors the Python
return value, with `none` standing for Python's `None` (skip, keep the
existing occupant). -/

/-- Result of `Path.stat()`: byte size and modification time. -/
structure FileStat where
  size : Nat
  mtime : Int
  deriving DecidableEq

/-- Embedding of `resolve_duplicate_file` (levelzap.py:265-297). -/
def resolveDuplicateFile (disk : List Path) (statOf : Path → Option FileStat)
    (existing newPath : Path) (strategy : Name) : Option Path :=
  if strategy = "overwrite".data then some newPath
  else if strategy = "rename".data then some (resolveConflictPath disk none existing)
  else if strategy = "newest".data ∨ strategy = "oldest".data ∨
      strategy = "largest".data ∨ strategy = "smallest".data then
    match statOf existing, statOf newPath with
    | some es, some ns =>
        let keepExisting : Bool :=
          if strategy = "newest".data then decide (ns.mtime ≤ es.mtime)
          else if strategy = "oldest".data then decide (es.mtime ≤ ns.mtime)
          else if strategy = "largest".data then decide (ns.size ≤ es.size)
          else decide (es.size ≤ ns.size)
        if keepExisting then none else some existing
    | _, _ => some (resolveConflictPath disk none existing)
  else some (resolveConflictPath disk none existing)

/-! ### Filesystem model

The filesystem is an association list from paths to nodes; `lookupFS`
returns the first binding. All operations below model the primitive
filesystem calls `perform_action` (levelzap.py:201-259) and the revert
loop of `revert_log` (levelzap.py:538-570) issue: `Path.rename`,
`Path.replace`, `shutil.rmtree`, `Path.rmdir`, `Path.unlink`,
`Path.mkdir(parents=True, exist_ok=True)` and `Path.touch`. -/

/-- A filesystem node: a regular file with its byte size, or a directory. -/
inductive FNode
  | file (size : Nat)
  | dir
  deriving DecidableEq

/-- Filesystem state. -/
abbrev FS := List (Path × FNode)

/-- Node stored at `p`, if `p` exists. -/
def lookupFS : FS → Path → Option FNode
  | [], _ => none
  | e :: rest, p => if e.1 = p then some e.2 else lookupFS rest p

/-- Remove the binding of exactly `p` (model of `unlink` / `rmdir`). -/
def removeFS (fs : FS) (p : Path) : FS :=
  fs.filter (fun e => decide (e.1 ≠ p))

/-- Remove `p` and everything below it (model of `shutil.rmtree`). -/
def rmtreeFS (fs : FS) (p : Path) : FS :=
  fs.filter (fun e => decide (¬ p <+: e.1))

/-- Path arithmetic of `rename`: paths inside the moved subtree are
re-rooted from `src` to `dst`, other paths are untouched. -/
def renamePath (src dst p : Path) : Path :=
  if src <+: p then dst ++ p.drop src.length else p

/-- Model of `os.rename(src, dst)`: every path in the `src` subtree is
re-rooted at `dst`. -/
def renameFS (fs : FS) (src dst : Path) : FS :=
  fs.map (fun e => (renamePath src dst e.1, e.2))

/-- All nonempty prefixes of `p`, shortest first (the chain of
directories `mkdir(parents=True)` walks, ending with `p` itself). -/
def ancestors (p : Path) : List Path :=
  (List.range p.length).map (fun k => p.take (k + 1))

/-- Model of `p.mkdir(parents=True, exist_ok=True)`: create each missing
link of the chain as a directory; existing entries are kept. -/
def mkdirAll (fs : FS) (p : Path) : FS :=
  (ancestors p).foldl
    (fun acc q => if lookupFS acc q = none then (q, FNode.dir) :: acc else acc) fs

/-- Model of `p.touch()`: create an empty file if `p` is absent,
otherwise leave the filesystem unchanged. -/
def touchFS (fs : FS) (p : Path) : FS :=
  if lookupFS fs p = none then (p, FNode.file 0) :: fs else fs

/-- Does any strictly deeper path live under `p`? (`rmdir` fails exactly
when the directory is non-empty.) -/
def hasDescendant (fs : FS) (p : Path) : Bool :=
  fs.any (fun e => decide (p <+: e.1 ∧ e.1 ≠ p))

/-! ### Actions (`perform_action`, levelzap.py:201-259) -/

/-- The seven action kinds `perform_action` executes and logs. -/
inductive ActKind
  | move
  | move_renamed
  | overwrite_file
  | overwrite_folder
  | delete_folder
  | delete_empty_folder
  | delete_zero_file
  deriving DecidableEq

/-- Value of an `extra` field of a log entry: a string
(`original_conflict`, `strategy`) or a list of strings (`chosen_from`). -/
inductive ExtraVal
  | str (s : Name)
  | strs (l : List Name)
  deriving DecidableEq

/-- One logged action: the `action`, `timestamp`, `source`, optional
`destination` and open `extra` fields of a log entry. Only `kind`,
`source` and `destination` drive the filesystem semantics; `timestamp`
and `extra` matter for serialization. -/
structure Action where
  kind : ActKind
  source : Path
  destination : Option Path
  timestamp : Name
  extra : List (Name × ExtraVal)
  deriving DecidableEq

/-- The reversible kinds of C1 (everything except the overwrite kinds). -/
def reversibleKind : ActKind → Bool
  | .move | .move_renamed | .delete_folder | .delete_empty_folder | .delete_zero_file => true
  | _ => false

/-- The overwrite kinds (`act_type.startswith("overwrite")`). -/
def overwriteKind : ActKind → Bool
  | .overwrite_file | .overwrite_folder => true
  | _ => false

/-- Forward filesystem effect of `perform_action` for a real
(non-simulated) run (levelzap.py:218-253). A failing primitive call
(`rename` on a missing source, `rmdir` on a non-empty directory, `unlink`
on a missing file) only prints and leaves the filesystem unchanged, which
the fallthrough branches model. -/
def applyAction (fs : FS) (a : Action) : FS :=
  match a.kind with
  | .move | .move_renamed =>
      match a.destination with
      | none => fs
      | some dst =>
          let fs1 := mkdirAll fs dst.dropLast
          if lookupFS fs1 a.source = none then fs1
          else renameFS (removeFS fs1 dst) a.source dst
  | .overwrite_file =>
      match a.destination with
      | none => fs
      | some dst =>
          if lookupFS fs a.source = none then fs
          else renameFS (removeFS fs dst) a.source dst
  | .overwrite_folder =>
      match a.destination with
      | none => fs
      | some dst =>
          let fs1 := rmtreeFS fs dst
          if lookupFS fs1 a.source = none then fs1
          else renameFS fs1 a.source dst
  | .delete_folder | .delete_empty_folder =>
      if lookupFS fs a.source = some .dir ∧ hasDescendant fs a.source = false then
        removeFS fs a.source
      else fs
  | .delete_zero_file =>
      match lookupFS fs a.source with
      | some (.file _) => removeFS fs a.source
      | _ => fs

/-- One step of the revert loop of `revert_log` (levelzap.py:539-570),
returning the new filesystem and the number of warnings printed. For
`move`/`move_renamed` the recorded destination is renamed back onto the
recorded source when it still exists; deleted folders are re-created
with `mkdir(parents=True, exist_ok=True)`; deleted zero-byte files are
re-created empty with `touch`; overwrite kinds are skipped with exactly
one warning. -/
def revertAction (fs : FS) (a : Action) : FS × Nat :=
  match a.kind with
  | .move | .move_renamed =>
      match a.destination with
      | none => (fs, 0)
      | some dst =>
          if lookupFS fs dst = none then (fs, 0)
          else
            let fs1 := mkdirAll fs a.source.dropLast
            (renameFS (removeFS fs1 a.source) dst a.source, 0)
  | .delete_folder | .delete_empty_folder =>
      (mkdirAll fs a.source, 0)
  | .delete_zero_file =>
      (touchFS (mkdirAll fs a.source.dropLast) a.source, 0)
  | .overwrite_file | .overwrite_folder =>
      (fs, 1)

/-- Preconditions under which an action runs cleanly in a real run: its
primitive calls succeed, the surrounding directories exist, and a move's
destination is unoccupied, so `rename` replaces nothing. They are what
the restoration argument of C1 needs, and the engines do not always
establish them: the first move of a multi-file group in the recursive
flatten (levelzap.py:402) is issued without an existence check and can
silently replace an earlier destination of the same run, which is what
the C1 counterexample exhibits. Overwrite kinds are excluded: they are
the irreversible ones. -/
def applicable (fs : FS) (a : Action) : Bool :=
  match a.kind with
  | .move | .move_renamed =>
      match a.destination with
      | none => false
      | some dst =>
          (lookupFS fs a.source).isSome &&
          fs.all (fun e => decide (¬ dst <+: e.1)) &&
          decide (¬ a.source <+: dst) &&
          (ancestors dst.dropLast).all (fun q => lookupFS fs q = some .dir) &&
          (ancestors a.source.dropLast).all (fun q => lookupFS fs q = some .dir)
  | .delete_folder | .delete_empty_folder =>
      decide (a.source ≠ []) &&
      decide (lookupFS fs a.source = some .dir) &&
      (ancestors a.source.dropLast).all (fun q => lookupFS fs q = some .dir)
  | .delete_zero_file =>
      decide (lookupFS fs a.source = some (.file 0)) &&
      (ancestors a.source.dropLast).all (fun q => lookupFS fs q = some .dir)
  | .overwrite_file | .overwrite_folder => false

/-- A run is clean when every action is applicable in the state it
executes in. -/
def runOk : FS → List Action → Bool
  | _, [] => true
  | fs, a :: rest => applicable fs a && runOk (applyAction fs a) rest

/-- Execute a list of actions forward. -/
def applyRun (fs : FS) (acts : List Action) : FS :=
  acts.foldl applyAction fs

/-- Replay a list of actions through the revert loop, counting
warnings. -/
def revertRun : FS → List Action → FS × Nat
  | fs, [] => (fs, 0)
  | fs, a :: rest =>
      let r := revertAction fs a
      let r2 := revertRun r.1 rest
      (r2.1, r.2 + r2.2)

/-- Concrete run used to witness C1: flatten `a/x.txt` up to the root and
delete the emptied folder `a`. -/
def fsC1 : FS :=
  [(["a".data], FNode.dir), (["a".data, "x.txt".data], FNode.file 3)]

/-- The two actions a real one-level flatten of `fsC1` performs and logs. -/
def actsC1 : List Action :=
  [⟨ActKind.move, ["a".data, "x.txt".data], some ["x.txt".data], "t1".data, []⟩,
   ⟨ActKind.delete_folder, ["a".data], none, "t2".data, []⟩]

/-! ### Log serialization and integrity (levelzap.py:476-490, 518-531, 612-626)

The writer serializes `json.dumps(log_data, indent=2)` where
`log_data = ("meta": meta, "actions": actions)` with the meta keys in
insertion order `version, log_timestamp, simulated, recursive,
duplicate_strategy`, hashes those bytes with SHA-256 and only then adds
the `hash` key to `meta`. The verifier (`verify_all_logs`, and
`revert_log` lines 518-531) pops `hash` from a copy of the loaded meta —
`dict` preserves insertion order, so the remaining keys serialize in the
original order — and re-serializes the same structure. Both sites are the
same `json.dumps` call, embedded once below; the hash itself is kept
abstract as a function `H` on the serialized bytes (injectivity of `H`
is the idealisation of SHA-256 collision resistance). The `hash` key is
modelled as a separate field of `LogFile` since it is excluded from the
hashed content on both sides. -/

/-- The `action` string of each kind. -/
def kindStr : ActKind → Name
  | .move => "move".data
  | .move_renamed => "move_renamed".data
  | .overwrite_file => "overwrite_file".data
  | .overwrite_folder => "overwrite_folder".data
  | .delete_folder => "delete_folder".data
  | .delete_empty_folder => "delete_empty_folder".data
  | .delete_zero_file => "delete_zero_file".data

/-- Python `str(path)` for an absolute path: slash-joined components. -/
def renderPath (p : Path) : Name :=
  p.foldl (fun acc c => acc ++ '/' :: c) []

/-- JSON escaping of one character (`json.dumps` escapes the quote and
the backslash; control characters never occur in the logged values). -/
def escChar (c : Char) : List Char :=
  if c = '"' ∨ c = '\\' then ['\\', c] else [c]

/-- A JSON string literal. -/
def jsonStr (s : Name) : List Char :=
  '"' :: (s.map escChar).flatten ++ ['"']

/-- JSON booleans. -/
def boolStr (b : Bool) : List Char :=
  if b then "true".data else "false".data

/-- Serialization of an `extra` value at depth 3 of the indent-2 layout. -/
def serExtraVal : ExtraVal → List Char
  | .str s => jsonStr s
  | .strs [] => "[]".data
  | .strs l =>
      "[\n".data ++
      List.intercalate ",\n".data (l.map (fun s => "        ".data ++ jsonStr s)) ++
      "\n      ]".data

/-- Serialization of one action object exactly as `perform_action` builds
its entry: `action`, `timestamp`, then `source`, then `destination` when
present, then the `extra` fields in order. -/
def serAction (a : Action) : List Char :=
  "    \x7b\n      \"action\": ".data ++ jsonStr (kindStr a.kind) ++
  ",\n      \"timestamp\": ".data ++ jsonStr a.timestamp ++
  ",\n      \"source\": ".data ++ jsonStr (renderPath a.source) ++
  (match a.destination with
   | none => []
   | some d => ",\n      \"destination\": ".data ++ jsonStr (renderPath d)) ++
  (a.extra.map (fun kv =>
      ",\n      ".data ++ jsonStr kv.1 ++ ": ".data ++ serExtraVal kv.2)).flatten ++
  "\n    \x7d".data

/-- Serialization of the `actions` array. -/
def serActions : List Action → List Char
  | [] => "[]".data
  | l => "[\n".data ++ List.intercalate ",\n".data (l.map serAction) ++ "\n  ]".data

/-- The meta object a flatten run writes (levelzap.py:477-483), in its
insertion order; the `hash` key is added after hashing and lives in
`LogFile.hash`. -/
structure FlatMeta where
  version : Name
  log_timestamp : Name
  simulated : Bool
  recursive : Bool
  duplicate_strategy : Name
  deriving DecidableEq

/-- Serialization of the meta object (without `hash`), nested at depth 1. -/
def serMetaFlat (m : FlatMeta) : List Char :=
  "\x7b\n    \"version\": ".data ++ jsonStr m.version ++
  ",\n    \"log_timestamp\": ".data ++ jsonStr m.log_timestamp ++
  ",\n    \"simulated\": ".data ++ boolStr m.simulated ++
  ",\n    \"recursive\": ".data ++ boolStr m.recursive ++
  ",\n    \"duplicate_strategy\": ".data ++ jsonStr m.duplicate_strategy ++
  "\n  \x7d".data

/-- The canonical bytes both the writer and the verifier hash:
`json.dumps(("meta": meta minus hash, "actions": actions), indent=2)`. -/
def serLog (m : FlatMeta) (acts : List Action) : List Char :=
  "\x7b\n  \"meta\": ".data ++ serMetaFlat m ++
  ",\n  \"actions\": ".data ++ serActions acts ++
  "\n\x7d".data

/-- A log file: meta, the stored `hash` value (inside `meta` on disk but
never part of the hashed content), and the actions. -/
structure LogFile where
  meta : FlatMeta
  hash : Option Name
  actions : List Action
  deriving DecidableEq

/-- Recompute the integrity digest over the canonical serialization. -/
def computeHash (H : List Char → Name) (m : FlatMeta) (acts : List Action) : Name :=
  H (serLog m acts)

/-- Finalization (levelzap.py:488-489): hash the serialized
`(meta, actions)` pair, then store the digest. -/
def finalizeLog (H : List Char → Name) (m : FlatMeta) (acts : List Action) : LogFile :=
  ⟨m, some (computeHash H m acts), acts⟩

/-- The integrity check of `verify_all_logs` / `revert_log`: the stored
hash must equal the digest recomputed over `(meta minus hash, actions)`. -/
def verifyIntegrity (H : List Char → Name) (lf : LogFile) : Bool :=
  lf.hash = some (computeHash H lf.meta lf.actions)

/-- Characters that would require JSON escaping or break a line. -/
def escFree (s : Name) : Bool :=
  s.all (fun c => decide (¬ (c = '"' ∨ c = '\\' ∨ c = '\n')))

/-- Well-formed meta: the logged string values (a version number, an ISO
timestamp, a strategy name) contain no quote, backslash or newline. -/
def wfMeta (m : FlatMeta) : Bool :=
  escFree m.version && escFree m.log_timestamp && escFree m.duplicate_strategy

/-! ### The `revert_log` pipeline (levelzap.py:503-582)

`revert_log` loads the log, rejects simulated logs, recomputes the
integrity hash and stops on mismatch, replays the actions in reverse, and
finally either deletes the log file or — with `keep_logs` — re-opens it
and runs `json.dump(actions + [("reverted": True, ...)])` where
`actions = json.load(f)` is the whole top-level log value. LevelZap log
files are JSON objects, and Python's `dict + list` raises `TypeError`,
caught by the surrounding `except`, so the marker is never written. -/

/-- Minimal Python value algebra for the marker-append step: a loaded
log file is a dict; `+` is only defined between two lists. -/
inductive PyVal
  | pyDict (lf : LogFile)
  | pyList (n : Nat)
  deriving DecidableEq

/-- Python `+` on loaded JSON values; `none` is the `TypeError`. -/
def pyAdd : PyVal → PyVal → Option PyVal
  | .pyList a, .pyList b => some (.pyList (a + b))
  | _, _ => none

/-- Error message of the simulated-log gate (levelzap.py:515). -/
def errSimulated : Name :=
  "Cannot revert a simulated log file.".data

/-- Error message of the integrity gate (levelzap.py:528). -/
def errIntegrity : Name :=
  "Log file integrity check failed. Possible modification detected.".data

/-- Error message of the final log-file update (levelzap.py:582). -/
def errUpdateLog : Name :=
  "Error updating log file".data

/-- Observable outcome of one `revert_log` invocation. -/
structure RevertResult where
  fs : FS
  warnings : Nat
  errors : List Name
  replayed : Nat
  logDeleted : Bool
  logMarked : Bool
  deriving DecidableEq

/-- Embedding of `revert_log` (levelzap.py:503-582): the simulated gate, the integrity
gate, the reverse replay, and the final delete-or-mark step with its
`dict + list` marker append. -/
def revertLog (H : List Char → Name) (keepLog : Bool) (lf : LogFile)
    (fs : FS) : RevertResult :=
  if lf.meta.simulated then
    ⟨fs, 0, [errSimulated], 0, false, false⟩
  else if verifyIntegrity H lf = false then
    ⟨fs, 0, [errIntegrity], 0, false, false⟩
  else
    let r := revertRun fs lf.actions.reverse
    if keepLog then
      match pyAdd (.pyDict lf) (.pyList 1) with
      | some _ => ⟨r.1, r.2, [], lf.actions.length, false, true⟩
      | none => ⟨r.1, r.2, [errUpdateLog], lf.actions.length, false, false⟩
    else
      ⟨r.1, r.2, [], lf.actions.length, true, false⟩

/-- A concrete valid, non-simulated, finalized empty-run log. -/
def lfC7 : LogFile :=
  finalizeLog (fun l => l) ⟨"0.4".data, "ts".data, false, false, "rename".data⟩ []

/-! ### Meta fields written by the three mutating runs (C6)

`flatten_folder` (levelzap.py:477-483) writes the meta keys
`version, log_timestamp, simulated, recursive, duplicate_strategy` and
then appends `hash`; `remove_empty_folders` (levelzap.py:732-737) and
`remove_zero_byte_files` (levelzap.py:813-818) write
`version, log_timestamp, simulated, recursive, operation` and then
append `hash`. -/

/-- Meta keys of a finalized flatten log, in insertion order. -/
def flattenMetaKeys : List Name :=
  ["version".data, "log_timestamp".data, "simulated".data, "recursive".data,
   "duplicate_strategy".data, "hash".data]

/-- Meta keys of a finalized `remove_empty_folders` log. -/
def removeEmptyMetaKeys : List Name :=
  ["version".data, "log_timestamp".data, "simulated".data, "recursive".data,
   "operation".data, "hash".data]

/-- Meta keys of a finalized `remove_zero_byte_files` log. -/
def removeZeroMetaKeys : List Name :=
  ["version".data, "log_timestamp".data, "simulated".data, "recursive".data,
   "operation".data, "hash".data]

/-! ### Recursive flatten, move phase, `rename` strategy
(levelzap.py:331-415)

The recursive mode collects `all_files`, groups them by their final name
(`files_by_destination`, a dict in first-occurrence order with per-group
insertion order), then processes each group: a single file whose
destination exists and differs is resolved through
`resolve_duplicate_file` — which for the `rename` strategy is
`resolve_conflict_path(destination, None)`, giving a `move_renamed` — a
single unconflicted file is a plain `move` whose destination is added to
`simulated_destinations`; in a larger group the first file is moved onto
the destination (with no existence check) and each further file is
renamed via `resolve_conflict_path(destination, simulated_destinations)`.
The disk is a list of all existing paths; a real (`simulate=False`)
`rename` removes the source path and makes the destination path present
(replacing silently, as `os.rename` does for files). The later
folder-deletion phase issues no destinations and is not needed by the
destination claims. -/

/-- Effect of `src.rename(dst)` on the set of existing paths: the source
path disappears, the destination path is present (an existing file at
`dst` is silently replaced); a missing source raises, leaving the disk
unchanged. -/
def diskMove (disk : List Path) (src dst : Path) : List Path :=
  if src ∈ disk then
    let d := disk.erase src
    if dst ∈ d then d else dst :: d
  else disk

/-- State threaded through the move phase: the existing paths, Python's
`simulated_destinations` set, and the action log. -/
structure FlatState where
  disk : List Path
  claimed : List Path
  log : List Action

/-- Effect of `perform_action` for a move-kind action inside the recursive flatten:
always log, and mutate the disk only in a real run. -/
def doMove (simulate : Bool) (st : FlatState) (k : ActKind) (src dst : Path)
    (ex : List (Name × ExtraVal)) : FlatState :=
  { disk := if simulate then st.disk else diskMove st.disk src dst,
    claimed := st.claimed,
    log := st.log ++ [⟨k, src, some dst, [], ex⟩] }

/-- Append `f` to the group of name `n`, creating the group at the end if
absent (what `files_by_destination[dest_name].append(file_path)` does). -/
def addToGroups (acc : List (Name × List Path)) (n : Name) (f : Path) :
    List (Name × List Path) :=
  match acc with
  | [] => [(n, [f])]
  | g :: rest => if g.1 = n then (g.1, g.2 ++ [f]) :: rest
                 else g :: addToGroups rest n f

/-- Grouping `files_by_destination`: group the collected files by final name, in
first-occurrence order. -/
def groupByName (files : List Path) : List (Name × List Path) :=
  files.foldl (fun acc f => addToGroups acc (f.getLastD []) f) []

/-- The `extra` mapping recorded with a `move_renamed`
(levelzap.py:362,412). -/
def renameExtra (destination : Path) : List (Name × ExtraVal) :=
  [("original_conflict".data, ExtraVal.str (renderPath destination)),
   ("strategy".data, ExtraVal.str "rename".data)]

/-- Process one name group under the `rename` duplicate strategy
(levelzap.py:344-415; the comparison and overwrite strategy branches do
not fire when `duplicate_strategy == "rename"`, and
`resolve_duplicate_file` reduces to `resolve_conflict_path(destination,
None)` in the single-file conflict branch). -/
def processGroupRename (simulate : Bool) (root : Path) (st : FlatState) :
    Name × List Path → FlatState
  | (destName, files) =>
    let destination := root ++ [destName]
    match files with
    | [] => st
    | [f] =>
        if destination ∈ st.disk ∧ destination ≠ f then
          let resolved := resolveConflictPath st.disk none destination
          doMove simulate st .move_renamed f resolved (renameExtra destination)
        else
          let st1 := doMove simulate st .move f destination []
          { st1 with claimed := st1.claimed ++ [destination] }
    | f :: rest =>
        let st1 := doMove simulate st .move f destination []
        let st2 := { st1 with claimed := st1.claimed ++ [destination] }
        rest.foldl (fun s fp =>
          let renamed := resolveConflictPath s.disk (some s.claimed) destination
          let s1 := doMove simulate s .move_renamed fp renamed
            (renameExtra destination)
          { s1 with claimed := s1.claimed ++ [renamed] }) st2

/-- The whole move phase of a recursive flatten with the `rename`
strategy. -/
def flattenMovesRename (simulate : Bool) (root : Path) (disk0 : List Path)
    (allFiles : List Path) : FlatState :=
  (groupByName allFiles).foldl (processGroupRename simulate root)
    ⟨disk0, [], []⟩

/-- Destinations of the `move_renamed` actions of a log. -/
def moveRenamedDests (log : List Action) : List Path :=
  (log.filter (fun a => a.kind = ActKind.move_renamed)).filterMap (·.destination)

/-- All destinations recorded in a log. -/
def allDests (log : List Action) : List Path :=
  log.filterMap (·.destination)

/-- Simulated counterexample tree: `a/x.txt`, `b/x.txt`, `c/x_1.txt`. -/
def diskC3sim : List Path :=
  [["a".data], ["a".data, "x.txt".data], ["b".data], ["b".data, "x.txt".data],
   ["c".data], ["c".data, "x_1.txt".data]]

/-- Collection order of the simulated counterexample (all collected
files live in subdirectories and the subdirectories are listed in name
order, so this is an order `rglob` produces). -/
def filesC3sim : List Path :=
  [["a".data, "x.txt".data], ["b".data, "x.txt".data], ["c".data, "x_1.txt".data]]

/-- Real counterexample tree: an empty directory named `x.txt` at the
root, plus `a/x.txt`, `b/x_1.txt` and `c/x_1.txt`. -/
def diskC3real : List Path :=
  [["x.txt".data], ["a".data], ["a".data, "x.txt".data], ["b".data],
   ["b".data, "x_1.txt".data], ["c".data], ["c".data, "x_1.txt".data]]

/-- Collection order of the real counterexample. `rglob` yields the
root-level entries of the target folder before the entries of its
subdirectories; here the root holds only directories, every collected
file lives in a subdirectory, and the subdirectories are listed in name
order, so this is an order `rglob` produces. -/
def filesC3real : List Path :=
  [["a".data, "x.txt".data], ["b".data, "x_1.txt".data],
   ["c".data, "x_1.txt".data]]

/-- Log of the simulated counterexample run. -/
def logC3sim : List Action := (flattenMovesRename true [] diskC3sim filesC3sim).log

/-- Log of the real counterexample run. -/
def logC3real : List Action := (flattenMovesRename false [] diskC3real filesC3real).log

/-- The real counterexample tree as a filesystem with nodes: the same
paths as `diskC3real`, with distinct file contents. -/
def fsC1bad : FS :=
  [(["x.txt".data], FNode.dir), (["a".data], FNode.dir),
   (["a".data, "x.txt".data], FNode.file 1), (["b".data], FNode.dir),
   (["b".data, "x_1.txt".data], FNode.file 2), (["c".data], FNode.dir),
   (["c".data, "x_1.txt".data], FNode.file 3)]

/-- The three move actions the move phase logs on the real
counterexample tree: `a/x.txt` conflicts with the root directory
`x.txt` and is renamed to `x_1.txt`; the first file of the two-file
group `x_1.txt` is then moved onto `x_1.txt` with no existence check
(levelzap.py:402), silently replacing it; the second is renamed to
`x_1_1.txt`. -/
def movesC1bad : List Action :=
  [⟨ActKind.move_renamed, ["a".data, "x.txt".data], some ["x_1.txt".data], [],
     renameExtra ["x.txt".data]⟩,
   ⟨ActKind.move, ["b".data, "x_1.txt".data], some ["x_1.txt".data], [], []⟩,
   ⟨ActKind.move_renamed, ["c".data, "x_1.txt".data], some ["x_1_1.txt".data], [],
     renameExtra ["x_1.txt".data]⟩]

/-- The folder deletions of the same run: after the moves all four
subdirectories of the root are empty and `rmdir` succeeds on each. -/
def deletesC1bad : List Action :=
  [⟨ActKind.delete_folder, ["a".data], none, [], []⟩,
   ⟨ActKind.delete_folder, ["b".data], none, [], []⟩,
   ⟨ActKind.delete_folder, ["c".data], none, [], []⟩,
   ⟨ActKind.delete_folder, ["x.txt".data], none, [], []⟩]

/-- The full action log of the real counterexample run of C1. -/
def actsC1bad : List Action := movesC1bad ++ deletesC1bad

/-- Invariant of the real-run move phase, relative to a set `K` of paths
that must persist (instantiated with the root-level paths existing before
the run): every rename destination so far is on disk, every not-yet-moved
file is on disk, the rename destinations are pairwise distinct, no rename
destination is a pending file, the pending files are distinct, every path
of `K` is still on disk, and every rename destination avoids `K` and sits
directly under `root`. -/
def InvC3 (root : Path) (K : List Path) (st : FlatState)
    (remaining : List Path) : Prop :=
  (∀ r ∈ moveRenamedDests st.log, r ∈ st.disk) ∧
  (∀ f ∈ remaining, f ∈ st.disk) ∧
  (moveRenamedDests st.log).Nodup ∧
  (∀ r ∈ moveRenamedDests st.log, ∀ f ∈ remaining, r ≠ f) ∧
  remaining.Nodup ∧
  (∀ p ∈ K, p ∈ st.disk) ∧
  (∀ r ∈ moveRenamedDests st.log, r ∉ K ∧ r.length = root.length + 1)

/-! ### Theorems -/

theorem digitVal_digitCh {d : Nat} (h : d < 10) : digitVal (digitCh d) = d := by
  interval_cases d <;> rfl

theorem decVal_aux (l : List Char) (c : Char) (a : Nat) :
    (l ++ [c]).foldl (fun a c => a * 10 + digitVal c) a
      = (l.foldl (fun a c => a * 10 + digitVal c) a) * 10 + digitVal c := by
  rw [List.foldl_append]
  rfl

theorem decVal_decCharsAux (fuel : Nat) :
    ∀ n, n < 10 ^ fuel → decVal (decCharsAux fuel n) = n := by
  induction fuel with
  | zero =>
    intro n hn
    simp only [pow_zero, Nat.lt_one_iff] at hn
    subst hn; rfl
  | succ fuel ih =>
    intro n hn
    rw [decCharsAux]
    by_cases h : n < 10
    · rw [if_pos h]
      show 0 * 10 + digitVal (digitCh n) = n
      rw [digitVal_digitCh h]; omega
    · rw [if_neg h]
      unfold decVal
      rw [decVal_aux]
      have hdiv : n / 10 < 10 ^ fuel := by
        rw [pow_succ] at hn
        exact Nat.div_lt_of_lt_mul (by omega)
      have h2 := ih (n / 10) hdiv
      unfold decVal at h2
      rw [h2, digitVal_digitCh (Nat.mod_lt _ (by omega))]
      omega

theorem decVal_decChars (n : Nat) : decVal (decChars n) = n := by
  have hbound : n < 10 ^ (n + 1) := by
    calc n < n + 1 := by omega
    _ ≤ 10 ^ (n + 1) := Nat.le_of_lt (Nat.lt_pow_self (by omega) _)
  exact decVal_decCharsAux (n + 1) n hbound

theorem decChars_injective : Function.Injective decChars :=
  Function.LeftInverse.injective decVal_decChars

theorem renderCand_injective (parent : Path) (stem ext : Name) :
    Function.Injective (renderCand parent stem ext) := by
  intro i j h
  unfold renderCand at h
  have h1 : stem ++ ['_'] ++ decChars i ++ ext = stem ++ ['_'] ++ decChars j ++ ext := by
    have := List.append_cancel_left h
    simpa using this
  have h2 : decChars i = decChars j := by
    have h3 := List.append_cancel_right h1
    exact List.append_cancel_left h3
  exact decChars_injective h2

theorem searchFree_spec (used : Nat → Bool) (fuel start : Nat)
    (h : ∃ k, k < fuel ∧ used (start + k) = false) :
    used (searchFree used start fuel) = false ∧
      start ≤ searchFree used start fuel ∧
      ∀ j, start ≤ j → j < searchFree used start fuel → used j = true := by
  induction fuel generalizing start with
  | zero => obtain ⟨k, hk, _⟩ := h; omega
  | succ fuel ih =>
    rw [searchFree]
    cases hu : used start with
    | false =>
      rw [if_neg (by simp [hu])]
      refine ⟨hu, le_refl _, fun j h1 h2 => by omega⟩
    | true =>
      rw [if_pos rfl]
      obtain ⟨k, hk, hkf⟩ := h
      have hk0 : k ≠ 0 := by
        intro h0; subst h0; simp only [Nat.add_zero] at hkf
        rw [hkf] at hu; exact Bool.noConfusion hu
      have harg : used (start + 1 + (k - 1)) = false := by
        have heq : start + 1 + (k - 1) = start + k := by omega
        rw [heq]; exact hkf
      obtain ⟨hf, hs, hall⟩ := ih (start + 1) ⟨k - 1, by omega, harg⟩
      refine ⟨hf, by omega, ?_⟩
      intro j hj1 hj2
      rcases Nat.eq_or_lt_of_le hj1 with h | h
      · rw [← h]; exact hu
      · exact hall j h hj2

/-- Within `disk.length + claimed.length + 1` candidate indices there is
always an unused one (the candidates are pairwise distinct paths, while
the used paths form a finite list). -/
theorem exists_free_index (disk : List Path) (sims : Option (List Path))
    (parent : Path) (stem ext : Name) :
    ∃ k, k < disk.length + (sims.getD []).length + 1 ∧
      pathWouldExist disk sims (renderCand parent stem ext (1 + k)) = false := by
  by_contra hc
  push_neg at hc
  set N := disk.length + (sims.getD []).length with hN
  have hmem : ∀ k < N + 1,
      renderCand parent stem ext (1 + k) ∈ disk ++ sims.getD [] := by
    intro k hk
    have := hc k hk
    have hx : pathWouldExist disk sims (renderCand parent stem ext (1 + k)) = true := by
      cases hb : pathWouldExist disk sims (renderCand parent stem ext (1 + k))
      · exact absurd hb this
      · rfl
    unfold pathWouldExist at hx
    simp only [Bool.or_eq_true] at hx
    rcases hx with hx | hx
    · exact List.mem_append.mpr (Or.inl (by simpa using hx))
    · cases sims with
      | none => simp at hx
      | some l =>
        exact List.mem_append.mpr (Or.inr (by simpa using hx))
  have hinj : Set.InjOn (fun k => renderCand parent stem ext (1 + k))
      ↑(Finset.range (N + 1)) := by
    intro a _ b _ hab
    have := renderCand_injective parent stem ext hab
    omega
  have hsub : (Finset.range (N + 1)).image (fun k => renderCand parent stem ext (1 + k))
      ⊆ (disk ++ sims.getD []).toFinset := by
    intro p hp
    simp only [Finset.mem_image, Finset.mem_range] at hp
    obtain ⟨k, hk, rfl⟩ := hp
    exact List.mem_toFinset.mpr (hmem k hk)
  have hcard1 : ((Finset.range (N + 1)).image
      (fun k => renderCand parent stem ext (1 + k))).card = N + 1 := by
    rw [Finset.card_image_of_injOn (by simpa using hinj)]
    simp
  have hcard2 : ((disk ++ sims.getD []).toFinset).card ≤ N := by
    calc ((disk ++ sims.getD []).toFinset).card
        ≤ (disk ++ sims.getD []).length := List.toFinset_card_le _
      _ = N := by simp [hN]
  have := Finset.card_le_card hsub
  omega

theorem leastFreeIndex_spec (disk : List Path) (sims : Option (List Path))
    (parent : Path) (stem ext : Name) :
    pathWouldExist disk sims
        (renderCand parent stem ext (leastFreeIndex disk sims parent stem ext)) = false ∧
      1 ≤ leastFreeIndex disk sims parent stem ext ∧
      ∀ j, 1 ≤ j → j < leastFreeIndex disk sims parent stem ext →
        pathWouldExist disk sims (renderCand parent stem ext j) = true := by
  have h := exists_free_index disk sims parent stem ext
  exact searchFree_spec
    (fun i => pathWouldExist disk sims (renderCand parent stem ext i))
    (disk.length + (sims.getD []).length + 1) 1 h

/-- Both halves of `splitStemExt` concatenate back to the original name
(`stem + suffix` is the whole final component). -/
theorem splitStemExt_append (name : Name) :
    (splitStemExt name).1 ++ (splitStemExt name).2 = name := by
  unfold splitStemExt
  cases h : (List.range name.length).reverse.find? (fun i => name.get? i = some '.') with
  | none => simp
  | some i =>
    dsimp only
    by_cases hc : 0 < i ∧ i < name.length - 1
    · rw [if_pos hc]
      exact List.take_append_drop i name
    · rw [if_neg hc]; simp

theorem decChars_ne_nil (n : Nat) : decChars n ≠ [] := by
  unfold decChars decCharsAux
  by_cases h : n < 10
  · rw [if_pos h]; simp
  · rw [if_neg h]; simp

/-- A generated candidate is never the contested path itself: its final
component is strictly longer. -/
theorem renderCand_ne_self (parent : Path) (stem ext : Name) (i : Nat)
    (path : Path) (hse : stem ++ ext = path.getLastD []) :
    renderCand parent stem ext i ≠ path := by
  intro h
  unfold renderCand at h
  have hname : path.getLastD [] = stem ++ ['_'] ++ decChars i ++ ext := by
    rw [← h, List.getLastD_eq_getLast?, List.getLast?_concat]
    rfl
  have hlen2 : (stem ++ ext).length = (stem ++ ['_'] ++ decChars i ++ ext).length := by
    rw [hse, hname]
  have hd := decChars_ne_nil i
  have : 0 < (decChars i).length := List.length_pos.mpr hd
  simp only [List.length_append, List.length_cons, List.length_nil] at hlen2
  omega

/-- C8 counterexample: with `f.txt` and `f_1.txt` on disk, the resolver
retargets a collision at `f.txt` to `f_2.txt` (the smallest unused
index), although `f_10.txt` is also an unused name of the form
`base_i.ext` and is lexicographically smaller than `f_2.txt`; so the
resolver does not pick the lexicographically first unused name. -/
theorem C8_counterexample :
    resolveConflictPath [["f.txt".data], ["f_1.txt".data]] none ["f.txt".data]
        = ["f_2.txt".data] ∧
    renderCand [] "f".data ".txt".data 10 = ["f_10.txt".data] ∧
    pathWouldExist [["f.txt".data], ["f_1.txt".data]] none ["f_10.txt".data] = false ∧
    List.Lex (· < ·) "f_10.txt".data "f_2.txt".data ∧
    "f_10.txt".data ≠ "f_2.txt".data := by
  refine ⟨by decide, by decide, by decide, by decide, by decide⟩

/-- C8 (amended): under the rename strategy a collision keeps the
occupant (the result is never the contested path) and retargets the
incoming item to `base_i.ext` for the smallest integer `i ≥ 1` whose
rendered name is neither on disk nor already claimed in this run. -/
theorem C8_rename_smallest_index (disk : List Path) (sims : Option (List Path))
    (path : Path) (hocc : pathWouldExist disk sims path = true) :
    ∃ i, 1 ≤ i ∧
      resolveConflictPath disk sims path =
        renderCand path.dropLast (splitStemExt (path.getLastD [])).1
          (splitStemExt (path.getLastD [])).2 i ∧
      resolveConflictPath disk sims path ≠ path ∧
      pathWouldExist disk sims
        (renderCand path.dropLast (splitStemExt (path.getLastD [])).1
          (splitStemExt (path.getLastD [])).2 i) = false ∧
      ∀ j, 1 ≤ j → j < i →
        pathWouldExist disk sims
          (renderCand path.dropLast (splitStemExt (path.getLastD [])).1
            (splitStemExt (path.getLastD [])).2 j) = true := by
  obtain ⟨hfree, hge, hleast⟩ := leastFreeIndex_spec disk sims path.dropLast
    (splitStemExt (path.getLastD [])).1 (splitStemExt (path.getLastD [])).2
  refine ⟨leastFreeIndex disk sims path.dropLast
    (splitStemExt (path.getLastD [])).1 (splitStemExt (path.getLastD [])).2,
    hge, ?_, ?_, hfree, hleast⟩
  · unfold resolveConflictPath
    rw [if_pos hocc]
  · unfold resolveConflictPath
    rw [if_pos hocc]
    exact renderCand_ne_self _ _ _ _ _ (splitStemExt_append _)

/-- Witness for C8 (amended) at a concrete colliding input. -/
theorem C8_rename_smallest_index_witness :
    pathWouldExist [["f.txt".data]] none ["f.txt".data] = true ∧
    ∃ i, 1 ≤ i ∧
      resolveConflictPath [["f.txt".data]] none ["f.txt".data] =
        renderCand (["f.txt".data] : Path).dropLast
          (splitStemExt ((["f.txt".data] : Path).getLastD [])).1
          (splitStemExt ((["f.txt".data] : Path).getLastD [])).2 i ∧
      resolveConflictPath [["f.txt".data]] none ["f.txt".data] ≠ ["f.txt".data] ∧
      pathWouldExist [["f.txt".data]] none
        (renderCand (["f.txt".data] : Path).dropLast
          (splitStemExt ((["f.txt".data] : Path).getLastD [])).1
          (splitStemExt ((["f.txt".data] : Path).getLastD [])).2 i) = false ∧
      ∀ j, 1 ≤ j → j < i →
        pathWouldExist [["f.txt".data]] none
          (renderCand (["f.txt".data] : Path).dropLast
            (splitStemExt ((["f.txt".data] : Path).getLastD [])).1
            (splitStemExt ((["f.txt".data] : Path).getLastD [])).2 j) = true :=
  ⟨by decide, C8_rename_smallest_index [["f.txt".data]] none ["f.txt".data] (by decide)⟩

/-- C10: the resolver is total; it returns the input path when that path
is unused, and otherwise the candidate `base_i.ext` at the least index
`i ≥ 1` that is neither on disk nor claimed (such an index exists because
both used sets are finite). -/
theorem C10_resolver_termination (disk : List Path) (sims : Option (List Path))
    (path : Path) :
    (pathWouldExist disk sims path = false → resolveConflictPath disk sims path = path) ∧
    (pathWouldExist disk sims path = true →
      ∃ i, IsLeast (setOf fun j => 1 ≤ j ∧
          pathWouldExist disk sims
            (renderCand path.dropLast (splitStemExt (path.getLastD [])).1
              (splitStemExt (path.getLastD [])).2 j) = false) i ∧
        resolveConflictPath disk sims path =
          renderCand path.dropLast (splitStemExt (path.getLastD [])).1
            (splitStemExt (path.getLastD [])).2 i) := by
  constructor
  · intro h
    unfold resolveConflictPath
    rw [if_neg (by simp [h])]
  · intro h
    obtain ⟨hfree, hge, hleast⟩ := leastFreeIndex_spec disk sims path.dropLast
      (splitStemExt (path.getLastD [])).1 (splitStemExt (path.getLastD [])).2
    refine ⟨leastFreeIndex disk sims path.dropLast
      (splitStemExt (path.getLastD [])).1 (splitStemExt (path.getLastD [])).2,
      ⟨⟨hge, hfree⟩, ?_⟩, ?_⟩
    · rintro j ⟨hj1, hj2⟩
      by_contra hlt
      push_neg at hlt
      have := hleast j hj1 hlt
      rw [this] at hj2
      exact Bool.noConfusion hj2
    · unfold resolveConflictPath
      rw [if_pos h]

/-- Witness for C10 on a concrete used path. -/
theorem C10_resolver_termination_witness :
    resolveConflictPath [] none ["g.txt".data] = ["g.txt".data] :=
  (C10_resolver_termination [] none ["g.txt".data]).1 (by decide)

/-- C9: for `largest` and `smallest`, the decision to keep the existing
occupant (skip the incoming file, Python `return None`) is exactly
`existing.size >= new.size` resp. `existing.size <= new.size`; in
particular equal sizes keep the existing occupant under both. -/
theorem C9_size_tie_keeps_existing (disk : List Path) (statOf : Path → Option FileStat)
    (e n : Path) (es ns : FileStat)
    (he : statOf e = some es) (hn : statOf n = some ns) :
    (resolveDuplicateFile disk statOf e n "largest".data = none ↔ ns.size ≤ es.size) ∧
    (resolveDuplicateFile disk statOf e n "smallest".data = none ↔ es.size ≤ ns.size) ∧
    (es.size = ns.size →
      resolveDuplicateFile disk statOf e n "largest".data = none ∧
      resolveDuplicateFile disk statOf e n "smallest".data = none) := by
  unfold resolveDuplicateFile
  rw [he, hn]
  refine ⟨?_, ?_, ?_⟩
  · simp
  · simp
  · intro hsz
    constructor
    · simp [hsz]
    · simp [hsz]

/-- Witness for C9 at concrete stats of equal size. -/
theorem C9_size_tie_keeps_existing_witness :
    resolveDuplicateFile []
        (fun p => if p = ["a.txt".data] then some ⟨7, 0⟩ else some ⟨7, 1⟩)
      ["a.txt".data] ["b.txt".data] "largest".data = none := by
  have h := C9_size_tie_keeps_existing []
    (fun p => if p = ["a.txt".data] then some ⟨7, 0⟩ else some ⟨7, 1⟩)
    ["a.txt".data] ["b.txt".data] ⟨7, 0⟩ ⟨7, 1⟩ (by decide) (by decide)
  exact (h.2.2 rfl).1

/-! ### Lookup characterizations of the filesystem operations -/

theorem lookupFS_isSome_of_mem {fs : FS} {e : Path × FNode} (h : e ∈ fs) :
    (lookupFS fs e.1).isSome := by
  induction fs with
  | nil => cases h
  | cons f rest ih =>
    rw [lookupFS]
    by_cases hf : f.1 = e.1
    · rw [if_pos hf]; rfl
    · rw [if_neg hf]
      rcases List.mem_cons.mp h with h1 | h1
      · subst h1; exact absurd rfl hf
      · exact ih h1

theorem exists_mem_of_lookupFS {fs : FS} {p : Path}
    (h : (lookupFS fs p).isSome) : ∃ n, (p, n) ∈ fs := by
  induction fs with
  | nil => simp [lookupFS] at h
  | cons f rest ih =>
    rw [lookupFS] at h
    by_cases hf : f.1 = p
    · refine ⟨f.2, ?_⟩
      have : f = (p, f.2) := by
        cases f; simp only at hf ⊢; rw [hf]
      rw [← this]; exact List.mem_cons_self _ _
    · rw [if_neg hf] at h
      obtain ⟨n, hn⟩ := ih h
      exact ⟨n, List.mem_cons_of_mem _ hn⟩

theorem lookupFS_removeFS (fs : FS) (p q : Path) :
    lookupFS (removeFS fs p) q = if q = p then none else lookupFS fs q := by
  induction fs with
  | nil =>
    by_cases h : q = p <;> simp [removeFS, lookupFS, h]
  | cons f rest ih =>
    unfold removeFS at ih ⊢
    rw [List.filter_cons]
    by_cases hf : f.1 = p
    · rw [if_neg (by simp [hf]), ih, lookupFS]
      by_cases hq : q = p
      · rw [if_pos hq, if_pos hq]
      · rw [if_neg hq, if_neg hq, if_neg (by rw [hf]; exact fun h => hq h.symm)]
    · rw [if_pos (by simp [hf]), lookupFS, lookupFS, ih]
      by_cases hfq : f.1 = q
      · rw [if_pos hfq, if_pos hfq, if_neg (by rw [← hfq]; exact hf)]
      · rw [if_neg hfq, if_neg hfq]

theorem lookupFS_rmtreeFS (fs : FS) (p q : Path) :
    lookupFS (rmtreeFS fs p) q = if p <+: q then none else lookupFS fs q := by
  induction fs with
  | nil =>
    by_cases h : p <+: q <;> simp [rmtreeFS, lookupFS, h]
  | cons f rest ih =>
    unfold rmtreeFS at ih ⊢
    rw [List.filter_cons]
    by_cases hf : p <+: f.1
    · rw [if_neg (by simp [hf]), ih]
      by_cases hq : p <+: q
      · rw [if_pos hq, if_pos hq]
      · rw [if_neg hq, if_neg hq, lookupFS,
          if_neg (fun h => hq (by rw [← h]; exact hf))]
    · rw [if_pos (by simp [hf]), lookupFS, lookupFS, ih]
      by_cases hfq : f.1 = q
      · rw [if_pos hfq, if_pos hfq, if_neg (by rw [← hfq]; exact hf)]
      · rw [if_neg hfq, if_neg hfq]

theorem lookupFS_touchFS (fs : FS) (p q : Path) :
    lookupFS (touchFS fs p) q =
      if lookupFS fs p = none ∧ q = p then some (FNode.file 0)
      else lookupFS fs q := by
  unfold touchFS
  by_cases hl : lookupFS fs p = none
  · rw [if_pos hl, lookupFS]
    by_cases hq : q = p
    · rw [if_pos (by exact hq.symm), if_pos ⟨hl, hq⟩]
    · rw [if_neg (fun h => hq h.symm), if_neg (fun h => hq h.2)]
  · rw [if_neg hl, if_neg (fun h => hl h.1)]

theorem lookupFS_mkdirList (ps : List Path) (fs : FS) (q : Path) :
    lookupFS (ps.foldl
        (fun acc r => if lookupFS acc r = none then (r, FNode.dir) :: acc else acc) fs) q
      = if q ∈ ps ∧ lookupFS fs q = none then some FNode.dir else lookupFS fs q := by
  induction ps generalizing fs with
  | nil => simp
  | cons p rest ih =>
    rw [List.foldl_cons]
    by_cases hl : lookupFS fs p = none
    · rw [if_pos hl, ih]
      have hcons : lookupFS ((p, FNode.dir) :: fs) q =
          if q = p then some FNode.dir else lookupFS fs q := by
        rw [lookupFS]
        by_cases hq : q = p
        · rw [if_pos hq.symm, if_pos hq]
        · rw [if_neg (fun h => hq h.symm), if_neg hq]
      rw [hcons]
      by_cases hq : q = p
      · subst hq
        simp [hl]
      · simp only [if_neg hq, List.mem_cons]
        by_cases hr : q ∈ rest
        · simp [hr, hq]
        · simp [hr, hq]
    · rw [if_neg hl, ih]
      by_cases hq : q = p
      · subst hq
        simp [hl]
      · simp [List.mem_cons, hq]

theorem lookupFS_mkdirAll (fs : FS) (p q : Path) :
    lookupFS (mkdirAll fs p) q =
      if q ∈ ancestors p ∧ lookupFS fs q = none then some FNode.dir
      else lookupFS fs q :=
  lookupFS_mkdirList (ancestors p) fs q

theorem mkdirList_noop (ps : List Path) (fs : FS)
    (h : ∀ r ∈ ps, (lookupFS fs r).isSome) :
    ps.foldl (fun acc r => if lookupFS acc r = none then (r, FNode.dir) :: acc else acc) fs
      = fs := by
  induction ps with
  | nil => rfl
  | cons p rest ih =>
    rw [List.foldl_cons]
    have hp : (lookupFS fs p).isSome := h p (List.mem_cons_self _ _)
    rw [if_neg (by intro hn; rw [hn] at hp; exact Bool.noConfusion hp)]
    exact ih (fun r hr => h r (List.mem_cons_of_mem _ hr))

theorem mkdirAll_noop (fs : FS) (p : Path)
    (h : ∀ r ∈ ancestors p, (lookupFS fs r).isSome) : mkdirAll fs p = fs :=
  mkdirList_noop (ancestors p) fs h

theorem removeFS_noop (fs : FS) (p : Path) (h : lookupFS fs p = none) :
    removeFS fs p = fs := by
  apply List.filter_eq_self.mpr
  intro e he
  simp only [decide_eq_true_eq]
  intro hep
  have hs := lookupFS_isSome_of_mem he
  rw [hep, h] at hs
  exact Bool.noConfusion hs

theorem renamePath_eq_iff (s d p q : Path) (hp : ¬ d <+: p)
    (h1 : d <+: q) : renamePath s d p = q ↔ p = s ++ q.drop d.length := by
  unfold renamePath
  by_cases hsp : s <+: p
  · rw [if_pos hsp]
    constructor
    · intro h
      have hq : d ++ q.drop d.length = q := List.prefix_iff_eq_append.mp h1
      have hcancel : p.drop s.length = q.drop d.length :=
        List.append_cancel_left (by rw [h, hq])
      have hp2 : s ++ p.drop s.length = p := List.prefix_iff_eq_append.mp hsp
      rw [← hcancel, hp2]
    · intro h
      rw [h, List.drop_left]
      exact List.prefix_iff_eq_append.mp h1
  · rw [if_neg hsp]
    constructor
    · intro h
      exact absurd (h ▸ h1) hp
    · intro h
      exact absurd (h ▸ List.prefix_append s _) hsp

theorem renamePath_ne (s d p q : Path) (h1 : ¬ d <+: q) (h2 : s <+: q) :
    renamePath s d p ≠ q := by
  unfold renamePath
  by_cases hsp : s <+: p
  · rw [if_pos hsp]
    intro h
    exact h1 (h ▸ List.prefix_append d _)
  · rw [if_neg hsp]
    intro h
    exact hsp (by rw [h]; exact h2)

theorem renamePath_eq_iff_of_not (s d p q : Path) (h1 : ¬ d <+: q) (h2 : ¬ s <+: q) :
    renamePath s d p = q ↔ p = q := by
  unfold renamePath
  by_cases hsp : s <+: p
  · rw [if_pos hsp]
    constructor
    · intro h
      exact absurd (h ▸ List.prefix_append d _) h1
    · intro h
      exact absurd (h ▸ hsp) h2
  · rw [if_neg hsp]

/-- Lookup characterization of `renameFS`, provided nothing lives at or
below the rename target `d`: paths under `d` afterwards come from the
corresponding path under `s`, paths under `s` are gone, everything else
is untouched. -/
theorem lookupFS_renameFS (fs : FS) (s d : Path)
    (hd : ∀ e ∈ fs, ¬ d <+: e.1) (q : Path) :
    lookupFS (renameFS fs s d) q =
      if d <+: q then lookupFS fs (s ++ q.drop d.length)
      else if s <+: q then none
      else lookupFS fs q := by
  induction fs with
  | nil =>
    by_cases h1 : d <+: q <;> by_cases h2 : s <+: q <;>
      simp [renameFS, lookupFS, h1, h2]
  | cons e rest ih =>
    have he : ¬ d <+: e.1 := hd e (List.mem_cons_self _ _)
    have hr := ih (fun e' he' => hd e' (List.mem_cons_of_mem _ he'))
    show lookupFS ((renamePath s d e.1, e.2) :: renameFS rest s d) q = _
    rw [lookupFS, hr]
    by_cases h1 : d <+: q
    · rw [if_pos h1, if_pos h1]
      conv_rhs => rw [lookupFS]
      have hiff := renamePath_eq_iff s d e.1 q he h1
      by_cases he1 : e.1 = s ++ q.drop d.length
      · rw [if_pos (hiff.mpr he1), if_pos he1]
      · rw [if_neg (fun h => he1 (hiff.mp h)), if_neg he1]
    · rw [if_neg h1, if_neg h1]
      by_cases h2 : s <+: q
      · rw [if_pos h2, if_pos h2]
        rw [if_neg (renamePath_ne s d e.1 q h1 h2)]
      · rw [if_neg h2, if_neg h2]
        conv_rhs => rw [lookupFS]
        have hiff := renamePath_eq_iff_of_not s d e.1 q h1 h2
        by_cases he1 : e.1 = q
        · rw [if_pos (hiff.mpr he1), if_pos he1]
        · rw [if_neg (fun h => he1 (hiff.mp h)), if_neg he1]

/-! ### Ancestor chain facts -/

theorem mem_ancestors {r p : Path} : r ∈ ancestors p ↔ r ≠ [] ∧ r <+: p := by
  unfold ancestors
  simp only [List.mem_map, List.mem_range]
  constructor
  · rintro ⟨k, hk, rfl⟩
    constructor
    · intro h
      have := congrArg List.length h
      simp only [List.length_take, List.length_nil] at this
      omega
    · exact List.take_prefix _ _
  · rintro ⟨hne, hpre⟩
    refine ⟨r.length - 1, ?_, ?_⟩
    · have h1 : r.length ≤ p.length := hpre.length_le
      have h2 : 0 < r.length := List.length_pos.mpr hne
      omega
    · have h2 : 0 < r.length := List.length_pos.mpr hne
      have : r.length - 1 + 1 = r.length := by omega
      rw [this, ← List.prefix_iff_eq_take.mp hpre]

theorem self_mem_ancestors {p : Path} (h : p ≠ []) : p ∈ ancestors p :=
  mem_ancestors.mpr ⟨h, List.prefix_refl p⟩

theorem prefix_dropLast_iff {r p : Path} :
    r <+: p.dropLast ↔ r <+: p ∧ r.length ≤ p.length - 1 := by
  rw [List.dropLast_eq_take]
  constructor
  · intro h
    refine ⟨h.trans (List.take_prefix _ _), ?_⟩
    have := h.length_le
    simp only [List.length_take] at this
    omega
  · rintro ⟨h1, h2⟩
    have h3 : r = p.take r.length := List.prefix_iff_eq_take.mp h1
    rw [List.prefix_iff_eq_take, List.take_take]
    have hmin : r.length ⊓ (p.length - 1) = r.length := by
      simp only [inf_eq_left]; omega
    rw [hmin, ← h3]

theorem mem_ancestors_cases {q p : Path} (h : q ∈ ancestors p) :
    q = p ∨ q ∈ ancestors p.dropLast := by
  obtain ⟨hne, hpre⟩ := mem_ancestors.mp h
  by_cases heq : q = p
  · exact Or.inl heq
  · right
    rw [mem_ancestors]
    refine ⟨hne, prefix_dropLast_iff.mpr ⟨hpre, ?_⟩⟩
    have h1 : q.length ≤ p.length := hpre.length_le
    have h2 : q.length ≠ p.length := fun hl => heq (hpre.eq_of_length hl)
    omega

theorem mem_ancestors_dropLast {q p : Path} (hq : q ∈ ancestors p.dropLast) :
    q <+: p ∧ q.length < p.length := by
  obtain ⟨hne, hpre⟩ := mem_ancestors.mp hq
  obtain ⟨h1, h2⟩ := prefix_dropLast_iff.mp hpre
  have h3 : 0 < q.length := List.length_pos.mpr hne
  exact ⟨h1, by omega⟩

/-! ### Inversion of single reversible actions -/

/-- Core of the move inversion: renaming `dst` back onto `src` restores
every lookup, given that nothing lived at or under `dst` beforehand and
`src` and `dst` are incomparable. `g` is any state that agrees pointwise
with the post-move state. -/
theorem move_restore (fs g : FS) (src dst : Path)
    (hsome : (lookupFS fs src).isSome = true)
    (hkeys : ∀ e ∈ fs, ¬ dst <+: e.1)
    (hsd : ¬ src <+: dst)
    (hg : ∀ p, lookupFS g p = lookupFS (renameFS fs src dst) p) (q : Path) :
    lookupFS (renameFS (removeFS g src) dst src) q = lookupFS fs q := by
  have hds : ¬ dst <+: src := by
    obtain ⟨n, hn⟩ := exists_mem_of_lookupFS hsome
    exact hkeys (src, n) hn
  have hl : ∀ e ∈ removeFS g src, ¬ src <+: e.1 := by
    intro e he hsrc
    have heg : e ∈ g := (List.mem_filter.mp he).1
    have hneq : e.1 ≠ src := by
      have := (List.mem_filter.mp he).2
      simpa using this
    have hsome2 : (lookupFS g e.1).isSome := lookupFS_isSome_of_mem heg
    rw [hg, lookupFS_renameFS fs src dst hkeys] at hsome2
    by_cases hdq : dst <+: e.1
    · rcases List.prefix_or_prefix_of_prefix hsrc hdq with h | h
      · exact hsd h
      · exact hds h
    · rw [if_neg hdq, if_pos hsrc] at hsome2
      exact Bool.noConfusion hsome2
  rw [lookupFS_renameFS (removeFS g src) dst src hl q]
  by_cases hq1 : src <+: q
  · rw [if_pos hq1, lookupFS_removeFS]
    have ht : ¬ (dst ++ q.drop src.length = src) := by
      intro h
      exact hds (h ▸ List.prefix_append dst _)
    rw [if_neg ht, hg, lookupFS_renameFS fs src dst hkeys,
      if_pos (List.prefix_append dst _), List.drop_left,
      List.prefix_iff_eq_append.mp hq1]
  · rw [if_neg hq1]
    by_cases hq2 : dst <+: q
    · rw [if_pos hq2]
      cases hqq : lookupFS fs q with
      | none => rfl
      | some n =>
        have hmem := exists_mem_of_lookupFS (p := q) (by rw [hqq]; rfl)
        obtain ⟨n', hn'⟩ := hmem
        exact absurd hq2 (hkeys (q, n') hn')
    · rw [if_neg hq2, lookupFS_removeFS,
        if_neg (fun h => hq1 (by rw [h])), hg,
        lookupFS_renameFS fs src dst hkeys, if_neg hq2, if_neg hq1]

/-- The forward move expression of `applyAction` collapses to a pure
subtree rename when the move runs cleanly. -/
theorem applyMove_collapse (fs : FS) (src dst : Path)
    (hsome : (lookupFS fs src).isSome = true)
    (hkeys : ∀ e ∈ fs, ¬ dst <+: e.1)
    (hdpar : ∀ r ∈ ancestors dst.dropLast, lookupFS fs r = some FNode.dir) :
    (if lookupFS (mkdirAll fs dst.dropLast) src = none then mkdirAll fs dst.dropLast
     else renameFS (removeFS (mkdirAll fs dst.dropLast) dst) src dst)
      = renameFS fs src dst := by
  have hdpar' : ∀ r ∈ ancestors dst.dropLast, (lookupFS fs r).isSome := by
    intro r hr; rw [hdpar r hr]; rfl
  rw [mkdirAll_noop fs _ hdpar']
  rw [if_neg (by intro h; rw [h] at hsome; exact Bool.noConfusion hsome)]
  have hdn : lookupFS fs dst = none := by
    cases hll : lookupFS fs dst with
    | none => rfl
    | some n =>
      obtain ⟨n', hn'⟩ := exists_mem_of_lookupFS (p := dst) (by rw [hll]; rfl)
      exact absurd (List.prefix_refl dst) (hkeys (dst, n') hn')
  rw [removeFS_noop fs dst hdn]

/-- The revert expression for a move collapses to the reverse rename when
the recorded destination still exists and the source's parent chain is
intact. -/
theorem revertMove_collapse (g : FS) (src dst : Path)
    (hgdst : ¬ lookupFS g dst = none)
    (hgpar : ∀ r ∈ ancestors src.dropLast, (lookupFS g r).isSome) :
    ((if lookupFS g dst = none then (g, 0)
      else (renameFS (removeFS (mkdirAll g src.dropLast) src) dst src, (0 : Nat))) :
        FS × Nat).1
      = renameFS (removeFS g src) dst src := by
  rw [if_neg hgdst]
  dsimp only
  rw [mkdirAll_noop g _ hgpar]

/-- One reversible action, run cleanly forward, is undone exactly by its
revert step: every path maps back to its pre-action node. `g` is any
state pointwise equal to the post-action state (as produced by later,
already-undone actions). -/
theorem revertAction_applyAction (fs g : FS) (a : Action)
    (ha : applicable fs a = true)
    (hg : ∀ p, lookupFS g p = lookupFS (applyAction fs a) p) (q : Path) :
    lookupFS (revertAction g a).1 q = lookupFS fs q := by
  obtain ⟨kind, src, dstOpt, ts, ex⟩ := a
  cases kind with
  | overwrite_file => exact absurd ha (by simp [applicable])
  | overwrite_folder => exact absurd ha (by simp [applicable])
  | move | move_renamed =>
    cases dstOpt with
    | none => exact absurd ha (by simp [applicable])
    | some dst =>
      simp only [applicable, Bool.and_eq_true, List.all_eq_true, decide_eq_true_eq] at ha
      obtain ⟨⟨⟨⟨hsome, hkeys⟩, hsd⟩, hdpar⟩, hspar⟩ := ha
      have hkeys' : ∀ e ∈ fs, ¬ dst <+: e.1 := fun e he => hkeys e he
      have hcoll := applyMove_collapse fs src dst hsome hkeys' hdpar
      have hg' : ∀ p, lookupFS g p = lookupFS (renameFS fs src dst) p := fun p =>
        (hg p).trans (congrArg (fun t => lookupFS t p) hcoll)
      have hds : ¬ dst <+: src := by
        obtain ⟨n, hn⟩ := exists_mem_of_lookupFS hsome
        exact hkeys' (src, n) hn
      have hgdst : ¬ lookupFS g dst = none := by
        rw [hg' dst, lookupFS_renameFS fs src dst hkeys',
          if_pos (List.prefix_refl dst), List.drop_length, List.append_nil]
        intro h; rw [h] at hsome; exact Bool.noConfusion hsome
      have hgpar : ∀ r ∈ ancestors src.dropLast, (lookupFS g r).isSome := by
        intro r hr
        obtain ⟨hrpre, hrlen⟩ := mem_ancestors_dropLast hr
        have h1 : ¬ dst <+: r := fun h => hds (h.trans hrpre)
        have h2 : ¬ src <+: r := by
          intro h
          have := h.length_le
          omega
        rw [hg' r, lookupFS_renameFS fs src dst hkeys', if_neg h1, if_neg h2,
          hspar r hr]
        rfl
      exact (congrArg (fun t => lookupFS t q)
        (revertMove_collapse g src dst hgdst hgpar)).trans
        (move_restore fs g src dst hsome hkeys' hsd hg' q)
  | delete_folder | delete_empty_folder =>
    · simp only [applicable, Bool.and_eq_true, List.all_eq_true, decide_eq_true_eq] at ha
      obtain ⟨⟨hne, hdir⟩, hpar⟩ := ha
      show lookupFS (mkdirAll g src) q = lookupFS fs q
      rw [lookupFS_mkdirAll]
      by_cases hdesc : hasDescendant fs src = false
      · have hcoll : (if lookupFS fs src = some FNode.dir ∧ hasDescendant fs src = false
            then removeFS fs src else fs) = removeFS fs src := if_pos ⟨hdir, hdesc⟩
        have hg' : ∀ p, lookupFS g p = lookupFS (removeFS fs src) p := fun p =>
          (hg p).trans (congrArg (fun t => lookupFS t p) hcoll)
        by_cases hq : q = src
        · subst hq
          rw [if_pos ⟨self_mem_ancestors hne, by rw [hg', lookupFS_removeFS, if_pos rfl]⟩,
            hdir]
        · have hgq : lookupFS g q = lookupFS fs q := by
            rw [hg', lookupFS_removeFS, if_neg hq]
          by_cases hanc : q ∈ ancestors src
          · rcases mem_ancestors_cases hanc with h | h
            · exact absurd h hq
            · rw [if_neg (by rw [hgq, hpar q h]; rintro ⟨-, h2⟩; exact Option.noConfusion h2),
                hgq]
          · rw [if_neg (fun h => hanc h.1), hgq]
      · have hcoll : (if lookupFS fs src = some FNode.dir ∧ hasDescendant fs src = false
            then removeFS fs src else fs) = fs := if_neg (fun h => hdesc h.2)
        have hg' : ∀ p, lookupFS g p = lookupFS fs p := fun p =>
          (hg p).trans (congrArg (fun t => lookupFS t p) hcoll)
        by_cases hanc : q ∈ ancestors src
        · rcases mem_ancestors_cases hanc with h | h
          · subst h
            rw [if_neg (by rw [hg', hdir]; rintro ⟨-, h2⟩; exact Option.noConfusion h2), hg']
          · rw [if_neg (by rw [hg', hpar q h]; rintro ⟨-, h2⟩; exact Option.noConfusion h2),
              hg']
        · rw [if_neg (fun h => hanc h.1), hg']
  | delete_zero_file =>
    simp only [applicable, Bool.and_eq_true, List.all_eq_true, decide_eq_true_eq] at ha
    obtain ⟨hfile, hpar⟩ := ha
    have hcoll : (match lookupFS fs src with
        | some (FNode.file _) => removeFS fs src
        | _ => fs) = removeFS fs src := by
      rw [hfile]
    have hg' : ∀ p, lookupFS g p = lookupFS (removeFS fs src) p := fun p =>
      (hg p).trans (congrArg (fun t => lookupFS t p) hcoll)
    have hgpar : ∀ r ∈ ancestors src.dropLast, (lookupFS g r).isSome := by
      intro r hr
      obtain ⟨hrpre, hrlen⟩ := mem_ancestors_dropLast hr
      have hrne : r ≠ src := by
        intro h; subst h; omega
      rw [hg', lookupFS_removeFS, if_neg hrne, hpar r hr]
      rfl
    show lookupFS (touchFS (mkdirAll g src.dropLast) src) q = lookupFS fs q
    rw [mkdirAll_noop g _ hgpar, lookupFS_touchFS]
    have hgsrc : lookupFS g src = none := by
      rw [hg', lookupFS_removeFS, if_pos rfl]
    by_cases hq : q = src
    · subst hq
      rw [if_pos ⟨hgsrc, rfl⟩, hfile]
    · rw [if_neg (fun h => hq h.2), hg', lookupFS_removeFS, if_neg hq]

theorem revertRun_fst_append (fs : FS) (l1 l2 : List Action) :
    (revertRun fs (l1 ++ l2)).1 = (revertRun (revertRun fs l1).1 l2).1 := by
  induction l1 generalizing fs with
  | nil => rfl
  | cons a rest ih =>
    rw [List.cons_append, revertRun, revertRun]
    exact ih _

/-- Replaying a clean run's actions in strict reverse order through the
revert loop restores every pre-run lookup. -/
theorem runOk_revert_restores (acts : List Action) : ∀ (fs : FS),
    runOk fs acts = true →
    ∀ q, lookupFS (revertRun (applyRun fs acts) acts.reverse).1 q = lookupFS fs q := by
  induction acts with
  | nil =>
    intro fs _ q
    rfl
  | cons a rest ih =>
    intro fs h q
    rw [runOk, Bool.and_eq_true] at h
    obtain ⟨ha, hrest⟩ := h
    have happ : applyRun fs (a :: rest) = applyRun (applyAction fs a) rest := rfl
    rw [happ, List.reverse_cons, revertRun_fst_append]
    exact revertAction_applyAction fs _ a ha
      (fun p => ih (applyAction fs a) hrest p) q

/-- C1 (amended): for a non-simulated run each of whose actions ran
cleanly — in particular no move silently replaced an occupied
destination — replaying the log in strict reverse order (exactly as
`revert_log` does) restores the pre-run filesystem listing pointwise;
every action of an overwrite kind is skipped by the revert step — the
filesystem is untouched — and produces exactly one warning, and clean
runs only ever contain reversible kinds. The clean-execution hypothesis
cannot be dropped: see the C1 counterexample. -/
theorem C1_reverse_replay_restores :
    (∀ (fs : FS) (acts : List Action), runOk fs acts = true →
      ∀ q, lookupFS (revertRun (applyRun fs acts) acts.reverse).1 q = lookupFS fs q) ∧
    (∀ (fs : FS) (a : Action), applicable fs a = true → reversibleKind a.kind = true) ∧
    (∀ (fs : FS) (a : Action), overwriteKind a.kind = true →
      revertAction fs a = (fs, 1)) := by
  refine ⟨fun fs acts h q => runOk_revert_restores acts fs h q, ?_, ?_⟩
  · intro fs a ha
    obtain ⟨kind, src, dstOpt, ts, ex⟩ := a
    cases kind with
    | overwrite_file => exact absurd ha (by simp [applicable])
    | overwrite_folder => exact absurd ha (by simp [applicable])
    | move => rfl
    | move_renamed => rfl
    | delete_folder => rfl
    | delete_empty_folder => rfl
    | delete_zero_file => rfl
  · intro fs a ha
    obtain ⟨kind, src, dstOpt, ts, ex⟩ := a
    cases kind with
    | overwrite_file => rfl
    | overwrite_folder => rfl
    | move => exact absurd ha (by simp [overwriteKind])
    | move_renamed => exact absurd ha (by simp [overwriteKind])
    | delete_folder => exact absurd ha (by simp [overwriteKind])
    | delete_empty_folder => exact absurd ha (by simp [overwriteKind])
    | delete_zero_file => exact absurd ha (by simp [overwriteKind])

/-- Witness for C1: the concrete two-action run is clean, and reverse
replay restores the original locations of both entries. -/
theorem C1_reverse_replay_restores_witness :
    runOk fsC1 actsC1 = true ∧
    lookupFS (revertRun (applyRun fsC1 actsC1) actsC1.reverse).1
        ["a".data, "x.txt".data] = lookupFS fsC1 ["a".data, "x.txt".data] ∧
    lookupFS (revertRun (applyRun fsC1 actsC1) actsC1.reverse).1 ["a".data]
        = lookupFS fsC1 ["a".data] :=
  ⟨by decide,
   C1_reverse_replay_restores.1 fsC1 actsC1 (by decide) _,
   C1_reverse_replay_restores.1 fsC1 actsC1 (by decide) _⟩

theorem jsonEsc_eq_self {s : Name} (h : escFree s = true) :
    (s.map escChar).flatten = s := by
  induction s with
  | nil => rfl
  | cons c cs ih =>
    rw [escFree, List.all_cons, Bool.and_eq_true] at h
    obtain ⟨hc, hcs⟩ := h
    have hc' : ¬ c = '"' ∧ ¬ c = '\\' ∧ ¬ c = '\n' := by simpa using hc
    rw [List.map_cons, List.flatten_cons, ih hcs, escChar,
      if_neg (by simp only [not_or]; exact ⟨hc'.1, hc'.2.1⟩)]
    rfl

theorem escFree_no_quote {s : Name} (h : escFree s = true) :
    ∀ c ∈ s, ¬ c = '"' := by
  intro c hc
  rw [escFree, List.all_eq_true] at h
  have h2 := h c hc
  simp only [decide_eq_true_eq] at h2
  tauto

/-- The part of a string before its first quote character is uniquely
determined. -/
theorem quote_split {a x : List Char} : ∀ {b y : List Char},
    (∀ c ∈ a, ¬ c = '"') → (∀ c ∈ b, ¬ c = '"') →
    a ++ '"' :: x = b ++ '"' :: y → a = b ∧ x = y := by
  induction a with
  | nil =>
    intro b y _ hb h
    cases b with
    | nil => simpa using h
    | cons c bs =>
      simp only [List.nil_append, List.cons_append, List.cons.injEq] at h
      exact absurd h.1.symm (hb c (List.mem_cons_self _ _))
  | cons c as ih =>
    intro b y ha hb h
    cases b with
    | nil =>
      simp only [List.nil_append, List.cons_append, List.cons.injEq] at h
      exact absurd h.1 (ha c (List.mem_cons_self _ _))
    | cons d bs =>
      simp only [List.cons_append, List.cons.injEq] at h
      obtain ⟨hcd, hrest⟩ := h
      obtain ⟨h1, h2⟩ := ih (fun e he => ha e (List.mem_cons_of_mem _ he))
        (fun e he => hb e (List.mem_cons_of_mem _ he)) hrest
      exact ⟨by rw [hcd, h1], h2⟩

theorem peel_bool {b b' : Bool} {rest rest' : List Char}
    (h : boolStr b ++ rest = boolStr b' ++ rest') : b = b' ∧ rest = rest' := by
  cases b <;> cases b' <;> simp only [boolStr, if_true, if_false,
    Bool.false_eq_true, if_neg, ite_false, ite_true] at h
  · exact ⟨rfl, by
      have := congrArg (fun l => l.drop 5) h
      simpa using this⟩
  · have := congrArg (fun l => l.headD 'z') h
    simp [String.data] at this
  · have := congrArg (fun l => l.headD 'z') h
    simp [String.data] at this
  · exact ⟨rfl, by
      have := congrArg (fun l => l.drop 4) h
      simpa using this⟩

theorem serMetaFlat_inj {m m' : FlatMeta} (hm : wfMeta m = true)
    (hm' : wfMeta m' = true) (h : serMetaFlat m = serMetaFlat m') : m = m' := by
  obtain ⟨v, t, s, r, d⟩ := m
  obtain ⟨v', t', s', r', d'⟩ := m'
  rw [wfMeta, Bool.and_eq_true, Bool.and_eq_true] at hm hm'
  obtain ⟨⟨hv, ht⟩, hd⟩ := hm
  obtain ⟨⟨hv', ht'⟩, hd'⟩ := hm'
  simp only [serMetaFlat, jsonStr] at h
  simp only [jsonEsc_eq_self hv, jsonEsc_eq_self ht, jsonEsc_eq_self hd,
    jsonEsc_eq_self hv', jsonEsc_eq_self ht', jsonEsc_eq_self hd',
    List.append_assoc, List.cons_append, List.singleton_append,
    List.nil_append] at h
  simp only [List.cons.injEq, eq_self_iff_true, true_and] at h
  obtain ⟨hveq, h2⟩ := quote_split (escFree_no_quote hv) (escFree_no_quote hv') h
  simp only [List.cons.injEq, eq_self_iff_true, true_and] at h2
  obtain ⟨hteq, h3⟩ := quote_split (escFree_no_quote ht) (escFree_no_quote ht') h2
  simp only [List.cons.injEq, eq_self_iff_true, true_and] at h3
  obtain ⟨hseq, h4⟩ := peel_bool h3
  simp only [List.cons.injEq, eq_self_iff_true, true_and] at h4
  obtain ⟨hreq, h5⟩ := peel_bool h4
  simp only [List.cons.injEq, eq_self_iff_true, true_and] at h5
  obtain ⟨hdeq, -⟩ := quote_split (escFree_no_quote hd) (escFree_no_quote hd') h5
  have hv2 : v = v' := hveq
  have ht2 : t = t' := hteq
  have hd2 : d = d' := hdeq
  subst hv2; subst ht2; subst hseq; subst hreq; subst hd2
  rfl

/-- C2: the integrity check is a deterministic pure function of the log
content. Verifying an unmodified finalized log always succeeds; and, with
the digest `H` injective (the SHA-256 idealisation), any change to a meta
field other than `hash` (with the actions bytes unchanged), or any change
to the serialized bytes of the actions (with meta unchanged), makes
verification fail against the stored hash. -/
theorem C2_integrity_pure_function (H : List Char → Name)
    (hinj : Function.Injective H)
    (m : FlatMeta) (acts : List Action) (hwf : wfMeta m = true) :
    verifyIntegrity H (finalizeLog H m acts) = true ∧
    (∀ (m' : FlatMeta) (acts' : List Action), wfMeta m' = true →
      ((m' ≠ m ∧ serActions acts' = serActions acts) ∨
       (m' = m ∧ serActions acts' ≠ serActions acts)) →
      verifyIntegrity H ⟨m', (finalizeLog H m acts).hash, acts'⟩ = false) := by
  constructor
  · simp [verifyIntegrity, finalizeLog]
  · rintro m' acts' hwf' hcase
    simp only [verifyIntegrity, finalizeLog, computeHash, decide_eq_false_iff_not]
    intro heq2
    have hH : H (serLog m acts) = H (serLog m' acts') := by
      injection heq2
    have hser : serLog m acts = serLog m' acts' := hinj hH
    simp only [serLog, List.append_assoc] at hser
    have h1 := List.append_cancel_left hser
    rcases hcase with ⟨hne, heqa⟩ | ⟨heqm, hnea⟩
    · rw [heqa] at h1
      have h2 : serMetaFlat m = serMetaFlat m' := by
        have h3 : serMetaFlat m ++
            (",\n  \"actions\": ".data ++ (serActions acts ++ "\n\x7d".data)) =
          serMetaFlat m' ++
            (",\n  \"actions\": ".data ++ (serActions acts ++ "\n\x7d".data)) := h1
        exact List.append_cancel_right h3
      exact hne (serMetaFlat_inj hwf hwf' h2).symm
    · subst heqm
      have h2 := List.append_cancel_left h1
      have h3 := List.append_cancel_left h2
      exact hnea (List.append_cancel_right h3).symm

/-- Witness for C2 on a concrete finalized log with the identity digest
(injective). -/
theorem C2_integrity_pure_function_witness :
    verifyIntegrity (fun l => l)
      (finalizeLog (fun l => l)
        ⟨"0.4".data, "2025-01-01T00:00:00".data, false, false, "rename".data⟩ [])
      = true :=
  (C2_integrity_pure_function (fun l => l) (fun _ _ hab => hab)
    ⟨"0.4".data, "2025-01-01T00:00:00".data, false, false, "rename".data⟩ []
    (by decide)).1

/-- C4: a log whose meta has `simulated: true` is rejected by
`revert_log`: one error, the filesystem untouched, zero actions replayed,
and the log file neither deleted nor marked. -/
theorem C4_simulated_log_rejected (H : List Char → Name) (keepLog : Bool)
    (lf : LogFile) (fs : FS) (h : lf.meta.simulated = true) :
    revertLog H keepLog lf fs = ⟨fs, 0, [errSimulated], 0, false, false⟩ := by
  unfold revertLog
  rw [if_pos h]

/-- Witness for C4 on a concrete simulated log. -/
theorem C4_simulated_log_rejected_witness :
    revertLog (fun l => l) true
        ⟨⟨"0.4".data, "ts".data, true, false, "rename".data⟩, some "h".data,
          [⟨ActKind.move, ["a".data], some ["b".data], "t".data, []⟩]⟩ []
      = ⟨[], 0, [errSimulated], 0, false, false⟩ :=
  C4_simulated_log_rejected (fun l => l) true _ [] (by decide)

/-- C5: when the stored hash does not match the recomputed digest,
`revert_log` stops with an error before replaying anything: the
filesystem and the log file are unchanged. -/
theorem C5_integrity_mismatch_atomic (H : List Char → Name) (keepLog : Bool)
    (lf : LogFile) (fs : FS) (h1 : lf.meta.simulated = false)
    (h2 : verifyIntegrity H lf = false) :
    revertLog H keepLog lf fs = ⟨fs, 0, [errIntegrity], 0, false, false⟩ := by
  unfold revertLog
  rw [if_neg (by rw [h1]; exact Bool.noConfusion), if_pos h2]

/-- Witness for C5 on a concrete tampered log (stored hash differs from
the recomputed digest under the identity hash). -/
theorem C5_integrity_mismatch_atomic_witness :
    revertLog (fun l => l) false
        ⟨⟨"0.4".data, "ts".data, false, false, "rename".data⟩,
          some "bogus".data, []⟩ []
      = ⟨[], 0, [errIntegrity], 0, false, false⟩ :=
  C5_integrity_mismatch_atomic (fun l => l) false _ [] (by decide) (by decide)

set_option maxRecDepth 8192 in
/-- C7 (code behaviour at the failing input): on a valid non-simulated
log, reverting with `keep_logs` leaves the file unmarked (the
`dict + list` marker append raises `TypeError`) and reports an error,
while the default path deletes the file as specified. -/
theorem C7_keep_log_marker_never_written :
    ((revertLog (fun l => l) true lfC7 []).logMarked = false ∧
     (revertLog (fun l => l) true lfC7 []).logDeleted = false ∧
     (revertLog (fun l => l) true lfC7 []).errors = [errUpdateLog]) ∧
    ((revertLog (fun l => l) false lfC7 []).logDeleted = true ∧
     (revertLog (fun l => l) false lfC7 []).errors = []) := by
  decide

set_option maxRecDepth 8192 in
/-- C6 counterexample: a flatten log's meta has no `operation` key, and
the cleanup logs' metas have no `duplicate_strategy` key, so not every
mutating run writes all seven fields. -/
theorem C6_counterexample :
    "operation".data ∉ flattenMetaKeys ∧
    "duplicate_strategy".data ∉ removeEmptyMetaKeys ∧
    "duplicate_strategy".data ∉ removeZeroMetaKeys := by
  decide

set_option maxRecDepth 8192 in
/-- C6 (amended): every mutating run writes `version, log_timestamp,
simulated, recursive` and the integrity `hash`; flatten logs additionally
carry `duplicate_strategy` (but not `operation`), and the two cleanup
logs additionally carry `operation` (but not `duplicate_strategy`). -/
theorem C6_meta_fields :
    ("version".data ∈ flattenMetaKeys ∧ "log_timestamp".data ∈ flattenMetaKeys ∧
     "simulated".data ∈ flattenMetaKeys ∧ "recursive".data ∈ flattenMetaKeys ∧
     "duplicate_strategy".data ∈ flattenMetaKeys ∧ "hash".data ∈ flattenMetaKeys ∧
     "operation".data ∉ flattenMetaKeys) ∧
    ("version".data ∈ removeEmptyMetaKeys ∧ "log_timestamp".data ∈ removeEmptyMetaKeys ∧
     "simulated".data ∈ removeEmptyMetaKeys ∧ "recursive".data ∈ removeEmptyMetaKeys ∧
     "operation".data ∈ removeEmptyMetaKeys ∧ "hash".data ∈ removeEmptyMetaKeys ∧
     "duplicate_strategy".data ∉ removeEmptyMetaKeys) ∧
    ("version".data ∈ removeZeroMetaKeys ∧ "log_timestamp".data ∈ removeZeroMetaKeys ∧
     "simulated".data ∈ removeZeroMetaKeys ∧ "recursive".data ∈ removeZeroMetaKeys ∧
     "operation".data ∈ removeZeroMetaKeys ∧ "hash".data ∈ removeZeroMetaKeys ∧
     "duplicate_strategy".data ∉ removeZeroMetaKeys) := by
  refine ⟨?_, ?_, ?_⟩ <;> decide

set_option maxRecDepth 16384 in
/-- C3 counterexample: in the simulated run the `move_renamed`
destination `x_1.txt` collides with a later plain `move` destination; in
the real run the `move_renamed` destination `x_1.txt` collides with the
later unchecked first `move` of the two-file group of that name
(levelzap.py:402). Both collection orders are ones `rglob` produces (all
collected files live in subdirectories). So "distinct from every other
destination used in the run" fails, for simulated and for real runs
alike. -/
theorem C3_counterexample :
    (["x_1.txt".data] ∈ moveRenamedDests logC3sim ∧
     ¬ (allDests logC3sim).Nodup) ∧
    (["x_1.txt".data] ∈ moveRenamedDests logC3real ∧
     ¬ (allDests logC3real).Nodup) := by
  decide

set_option maxRecDepth 16384 in
/-- C1 counterexample: a reachable real recursive run — the real
counterexample tree, with a collection order `rglob` produces — in which
the unchecked first move of the two-file group `x_1.txt`
(levelzap.py:402) silently replaces the earlier `move_renamed`
destination. The move actions are exactly the log of the embedded move
phase on that tree, the folder deletions all succeed, and every logged
action is of a reversible kind; yet replaying the log in strict reverse
order does not restore the pre-run listing: `a/x.txt`, present before
the run, is absent afterwards, because the revert of its `move_renamed`
finds the recorded destination `x_1.txt` already renamed away and skips
it. -/
theorem C1_counterexample :
    (flattenMovesRename false [] diskC3real filesC3real).log = movesC1bad ∧
    (∀ a ∈ actsC1bad, reversibleKind a.kind = true) ∧
    lookupFS fsC1bad ["a".data, "x.txt".data] = some (FNode.file 1) ∧
    lookupFS (revertRun (applyRun fsC1bad actsC1bad) actsC1bad.reverse).1
      ["a".data, "x.txt".data] = none := by
  decide

/-! ### Distinctness of rename destinations in real runs (C3, amended) -/

theorem resolveConflictPath_unused (disk : List Path) (sims : Option (List Path))
    (path : Path) (h : pathWouldExist disk sims path = true) :
    pathWouldExist disk sims (resolveConflictPath disk sims path) = false := by
  unfold resolveConflictPath
  rw [if_pos h]
  exact (leastFreeIndex_spec disk sims path.dropLast _ _).1

theorem not_mem_of_pathWouldExist_false {disk : List Path}
    {sims : Option (List Path)} {p : Path}
    (h : pathWouldExist disk sims p = false) : p ∉ disk := by
  intro hmem
  unfold pathWouldExist at h
  simp [hmem] at h

theorem pathWouldExist_of_mem_disk {disk : List Path} {sims : Option (List Path)}
    {p : Path} (h : p ∈ disk) : pathWouldExist disk sims p = true := by
  unfold pathWouldExist
  simp [h]

theorem pathWouldExist_of_mem_claimed {disk : List Path} {l : List Path}
    {p : Path} (h : p ∈ l) : pathWouldExist disk (some l) p = true := by
  unfold pathWouldExist
  simp [h]

theorem moveRenamedDests_append (l1 l2 : List Action) :
    moveRenamedDests (l1 ++ l2) = moveRenamedDests l1 ++ moveRenamedDests l2 := by
  unfold moveRenamedDests
  rw [List.filter_append, List.filterMap_append]

theorem moveRenamedDests_move (src dst : Path) (ts : Name)
    (ex : List (Name × ExtraVal)) :
    moveRenamedDests [⟨ActKind.move, src, some dst, ts, ex⟩] = [] := rfl

theorem moveRenamedDests_renamed (src dst : Path) (ts : Name)
    (ex : List (Name × ExtraVal)) :
    moveRenamedDests [⟨ActKind.move_renamed, src, some dst, ts, ex⟩] = [dst] := rfl

theorem mem_diskMove_of_ne {disk : List Path} {p src dst : Path}
    (hp : p ∈ disk) (hne : p ≠ src) : p ∈ diskMove disk src dst := by
  unfold diskMove
  by_cases hs : src ∈ disk
  · rw [if_pos hs]
    have h1 : p ∈ disk.erase src := (List.mem_erase_of_ne hne).mpr hp
    by_cases hd : dst ∈ disk.erase src
    · rw [if_pos hd]; exact h1
    · rw [if_neg hd]; exact List.mem_cons_of_mem _ h1
  · rw [if_neg hs]; exact hp

theorem dst_mem_diskMove {disk : List Path} {src dst : Path}
    (hs : src ∈ disk) : dst ∈ diskMove disk src dst := by
  unfold diskMove
  rw [if_pos hs]
  by_cases hd : dst ∈ disk.erase src
  · rw [if_pos hd]; exact hd
  · rw [if_neg hd]; exact List.mem_cons_self _ _

theorem InvC3_move_step (root : Path) (K : List Path) (st : FlatState)
    (src dst : Path) (rem : List Path) (ex : List (Name × ExtraVal))
    (hsK : src ∉ K ∨ dst = src)
    (h : InvC3 root K st (src :: rem)) :
    InvC3 root K (doMove false st .move src dst ex) rem := by
  obtain ⟨h1, h2, h3, h4, h5, h6, h7⟩ := h
  have hsrc : src ∈ st.disk := h2 src (List.mem_cons_self _ _)
  have hlog : moveRenamedDests (doMove false st .move src dst ex).log
      = moveRenamedDests st.log := by
    show moveRenamedDests (st.log ++ [_]) = _
    rw [moveRenamedDests_append, moveRenamedDests_move, List.append_nil]
  refine ⟨?_, ?_, ?_, ?_, h5.of_cons, ?_, ?_⟩
  · intro r hr
    rw [hlog] at hr
    exact mem_diskMove_of_ne (h1 r hr) (h4 r hr src (List.mem_cons_self _ _))
  · intro f hf
    have hne : f ≠ src := by
      rintro rfl
      exact (List.nodup_cons.mp h5).1 hf
    exact mem_diskMove_of_ne (h2 f (List.mem_cons_of_mem _ hf)) hne
  · rw [hlog]; exact h3
  · intro r hr f hf
    rw [hlog] at hr
    exact h4 r hr f (List.mem_cons_of_mem _ hf)
  · intro p hp
    rcases hsK with hnK | hds
    · exact mem_diskMove_of_ne (h6 p hp) (fun hps => hnK (hps ▸ hp))
    · subst hds
      by_cases hps : p = dst
      · subst hps
        exact dst_mem_diskMove hsrc
      · exact mem_diskMove_of_ne (h6 p hp) hps
  · intro r hr
    rw [hlog] at hr
    exact h7 r hr

theorem InvC3_rename_step (root : Path) (K : List Path) (st : FlatState)
    (src r : Path) (rem : List Path)
    (ex : List (Name × ExtraVal)) (hr : r ∉ st.disk)
    (hlen : r.length = root.length + 1) (hsK : src ∉ K)
    (h : InvC3 root K st (src :: rem)) :
    InvC3 root K (doMove false st .move_renamed src r ex) rem := by
  obtain ⟨h1, h2, h3, h4, h5, h6, h7⟩ := h
  have hsrc : src ∈ st.disk := h2 src (List.mem_cons_self _ _)
  have hlog : moveRenamedDests (doMove false st .move_renamed src r ex).log
      = moveRenamedDests st.log ++ [r] := by
    show moveRenamedDests (st.log ++ [_]) = _
    rw [moveRenamedDests_append, moveRenamedDests_renamed]
  refine ⟨?_, ?_, ?_, ?_, h5.of_cons, ?_, ?_⟩
  · intro r' hr'
    rw [hlog] at hr'
    rcases List.mem_append.mp hr' with hold | hnew
    · exact mem_diskMove_of_ne (h1 r' hold) (h4 r' hold src (List.mem_cons_self _ _))
    · have : r' = r := by simpa using hnew
      subst this
      exact dst_mem_diskMove hsrc
  · intro f hf
    have hne : f ≠ src := by
      rintro rfl
      exact (List.nodup_cons.mp h5).1 hf
    exact mem_diskMove_of_ne (h2 f (List.mem_cons_of_mem _ hf)) hne
  · rw [hlog]
    rw [List.nodup_append]
    exact ⟨h3, List.nodup_singleton r, by
      intro x hx hx1
      have : x = r := by simpa using hx1
      subst this
      exact hr (h1 x hx)⟩
  · intro r' hr' f hf
    rw [hlog] at hr'
    rcases List.mem_append.mp hr' with hold | hnew
    · exact h4 r' hold f (List.mem_cons_of_mem _ hf)
    · have hrr : r' = r := by simpa using hnew
      subst hrr
      intro heq
      rw [heq] at hr
      exact hr (h2 f (List.mem_cons_of_mem _ hf))
  · intro p hp
    exact mem_diskMove_of_ne (h6 p hp) (fun hps => hsK (hps ▸ hp))
  · intro r' hr'
    rw [hlog] at hr'
    rcases List.mem_append.mp hr' with hold | hnew
    · exact h7 r' hold
    · have : r' = r := by simpa using hnew
      subst this
      exact ⟨fun hK => hr (h6 r' hK), hlen⟩

theorem resolveConflictPath_concat_length (disk : List Path)
    (sims : Option (List Path)) (root : Path) (n : Name)
    (h : pathWouldExist disk sims (root ++ [n]) = true) :
    (resolveConflictPath disk sims (root ++ [n])).length = root.length + 1 := by
  unfold resolveConflictPath
  rw [if_pos h]
  show (renderCand (root ++ [n]).dropLast _ _ _).length = _
  rw [List.dropLast_concat]
  simp [renderCand]

theorem eq_root_concat {root f : Path} (hpre : root <+: f)
    (hlen : f.length = root.length + 1) : f = root ++ [f.getLastD []] := by
  obtain ⟨t, ht⟩ := hpre
  have htl : t.length = 1 := by
    have h2 := congrArg List.length ht
    rw [List.length_append] at h2
    omega
  obtain ⟨x, hx⟩ := List.length_eq_one.mp htl
  subst hx
  subst ht
  rw [List.getLastD_concat]

theorem InvC3_inner_loop (root : Path) (K : List Path) (n : Name) :
    ∀ (files rem : List Path) (s : FlatState),
    InvC3 root K s (files ++ rem) → (root ++ [n]) ∈ s.claimed →
    (∀ fp ∈ files, fp ∉ K) →
    InvC3 root K (files.foldl (fun s fp =>
      let renamed := resolveConflictPath s.disk (some s.claimed) (root ++ [n])
      let s1 := doMove false s .move_renamed fp renamed (renameExtra (root ++ [n]))
      { s1 with claimed := s1.claimed ++ [renamed] }) s) rem := by
  intro files
  induction files with
  | nil => intro rem s h _ _; exact h
  | cons fp rest ih =>
    intro rem s h hcl hK
    rw [List.foldl_cons]
    have hused : pathWouldExist s.disk (some s.claimed) (root ++ [n]) = true :=
      pathWouldExist_of_mem_claimed hcl
    have hfree := resolveConflictPath_unused s.disk (some s.claimed) (root ++ [n]) hused
    have hnotdisk : resolveConflictPath s.disk (some s.claimed) (root ++ [n]) ∉ s.disk :=
      not_mem_of_pathWouldExist_false hfree
    have hlen := resolveConflictPath_concat_length s.disk (some s.claimed) root n hused
    have hstep := InvC3_rename_step root K s fp
      (resolveConflictPath s.disk (some s.claimed) (root ++ [n]))
      (rest ++ rem) (renameExtra (root ++ [n])) hnotdisk hlen
      (hK fp (List.mem_cons_self _ _)) (by simpa using h)
    exact ih rem _ hstep (List.mem_append.mpr (Or.inl hcl))
      (fun g hg => hK g (List.mem_cons_of_mem _ hg))

theorem InvC3_group (root : Path) (K : List Path) (st : FlatState)
    (g : Name × List Path) (rem : List Path)
    (hKlen : ∀ p ∈ K, p.length = root.length + 1)
    (hkey : ∀ f ∈ g.2, f.getLastD [] = g.1 ∧ root <+: f)
    (htail : ∀ f ∈ g.2.tail, f ∉ K)
    (h : InvC3 root K st (g.2 ++ rem)) :
    InvC3 root K (processGroupRename false root st g) rem := by
  obtain ⟨n, files⟩ := g
  cases files with
  | nil => exact h
  | cons f fs =>
    have hfK : f ∈ K → f = root ++ [n] := by
      intro hK
      obtain ⟨hk, hp⟩ := hkey f (List.mem_cons_self _ _)
      have h0 := eq_root_concat hp (hKlen f hK)
      rwa [hk] at h0
    cases fs with
    | nil =>
      simp only [processGroupRename]
      by_cases hc : (root ++ [n]) ∈ st.disk ∧ (root ++ [n]) ≠ f
      · rw [if_pos hc]
        have hused : pathWouldExist st.disk none (root ++ [n]) = true :=
          pathWouldExist_of_mem_disk hc.1
        have hfree := resolveConflictPath_unused st.disk none (root ++ [n]) hused
        have hlen := resolveConflictPath_concat_length st.disk none root n hused
        have hfnK : f ∉ K := fun hK => hc.2 ((hfK hK).symm)
        exact InvC3_rename_step root K st f _ rem _
          (not_mem_of_pathWouldExist_false hfree) hlen hfnK (by simpa using h)
      · rw [if_neg hc]
        have hsK : f ∉ K ∨ (root ++ [n]) = f := by
          by_cases hK : f ∈ K
          · exact Or.inr (hfK hK).symm
          · exact Or.inl hK
        exact InvC3_move_step root K st f (root ++ [n]) rem [] hsK (by simpa using h)
    | cons f2 rest =>
      simp only [processGroupRename]
      have hsK : f ∉ K ∨ (root ++ [n]) = f := by
        by_cases hK : f ∈ K
        · exact Or.inr (hfK hK).symm
        · exact Or.inl hK
      apply InvC3_inner_loop root K n (f2 :: rest) rem
      · exact InvC3_move_step root K st f (root ++ [n]) ((f2 :: rest) ++ rem) [] hsK
          (by simpa using h)
      · show (root ++ [n]) ∈
          (doMove false st .move f (root ++ [n]) []).claimed ++ [root ++ [n]]
        exact List.mem_append.mpr (Or.inr (List.mem_cons_self _ _))
      · intro fp hfp
        exact htail fp hfp

theorem addToGroups_flatten_count (n : Name) (f a : Path) :
    ∀ acc, @List.count Path instBEqOfDecidableEq a
        (((addToGroups acc n f).map Prod.snd).flatten)
      = @List.count Path instBEqOfDecidableEq a ((acc.map Prod.snd).flatten) +
        (if a = f then 1 else 0) := by
  intro acc
  induction acc with
  | nil =>
    by_cases haf : a = f
    · subst haf; simp [addToGroups]
    · simp [addToGroups, List.count_cons, haf, Ne.symm haf]
  | cons g rest ih =>
    rw [addToGroups]
    by_cases hg : g.1 = n
    · rw [if_pos hg]
      by_cases haf : a = f
      · subst haf
        simp only [List.map_cons, List.flatten_cons, List.count_append, if_pos rfl]
        simp [List.count_cons]
        omega
      · simp only [List.map_cons, List.flatten_cons, List.count_append, if_neg haf]
        simp [List.count_cons, Ne.symm haf]
    · rw [if_neg hg]
      simp only [List.map_cons, List.flatten_cons, List.count_append, ih]
      omega

theorem groupByName_count_aux (a : Path) : ∀ (files : List Path)
    (acc : List (Name × List Path)),
    @List.count Path instBEqOfDecidableEq a
        (((files.foldl (fun acc f => addToGroups acc (f.getLastD []) f) acc).map
          Prod.snd).flatten)
      = @List.count Path instBEqOfDecidableEq a ((acc.map Prod.snd).flatten) +
        @List.count Path instBEqOfDecidableEq a files := by
  intro files
  induction files with
  | nil => intro acc; simp
  | cons f rest ih =>
    intro acc
    rw [List.foldl_cons, ih, addToGroups_flatten_count]
    by_cases haf : a = f
    · subst haf
      simp [List.count_cons]
      omega
    · simp [List.count_cons, haf, Ne.symm haf]

theorem groupByName_flatten_perm (files : List Path) :
    (((groupByName files).map Prod.snd).flatten).Perm files := by
  apply List.perm_iff_count.mpr
  intro a
  have h := groupByName_count_aux a files []
  simp only [List.map_nil, List.flatten_nil, List.count_nil, Nat.zero_add] at h
  exact h

theorem addToGroups_key (acc : List (Name × List Path)) (n : Name) (f : Path)
    (hacc : ∀ g ∈ acc, ∀ x ∈ g.2, x.getLastD [] = g.1)
    (hf : f.getLastD [] = n) :
    ∀ g ∈ addToGroups acc n f, ∀ x ∈ g.2, x.getLastD [] = g.1 := by
  induction acc with
  | nil =>
    intro g hg x hx
    simp only [addToGroups, List.mem_singleton] at hg
    subst hg
    simp only [List.mem_singleton] at hx
    subst hx
    exact hf
  | cons g0 rest ih =>
    intro g hg x hx
    rw [addToGroups] at hg
    by_cases h0 : g0.1 = n
    · rw [if_pos h0] at hg
      rcases List.mem_cons.mp hg with hgg | hgr
      · subst hgg
        rcases List.mem_append.mp hx with hx1 | hx2
        · exact hacc g0 (List.mem_cons_self _ _) x hx1
        · have hxf : x = f := by simpa using hx2
          subst hxf
          show x.getLastD [] = g0.1
          rw [hf]
          exact h0.symm
      · exact hacc g (List.mem_cons_of_mem _ hgr) x hx
    · rw [if_neg h0] at hg
      rcases List.mem_cons.mp hg with hgg | hgr
      · subst hgg
        exact hacc g (List.mem_cons_self _ _) x hx
      · exact ih (fun g' hg' => hacc g' (List.mem_cons_of_mem _ hg')) g hgr x hx

theorem groupByName_key (files : List Path) :
    ∀ g ∈ groupByName files, ∀ x ∈ g.2, x.getLastD [] = g.1 := by
  unfold groupByName
  suffices h : ∀ (fs : List Path) (acc : List (Name × List Path)),
      (∀ g ∈ acc, ∀ x ∈ g.2, x.getLastD [] = g.1) →
      ∀ g ∈ fs.foldl (fun acc f => addToGroups acc (f.getLastD []) f) acc,
      ∀ x ∈ g.2, x.getLastD [] = g.1 by
    exact h files [] (fun g hg => absurd hg (List.not_mem_nil g))
  intro fs
  induction fs with
  | nil => intro acc hacc; exact hacc
  | cons f rest ih =>
    intro acc hacc
    rw [List.foldl_cons]
    exact ih _ (addToGroups_key acc (f.getLastD []) f hacc rfl)

theorem addToGroups_sublist (acc : List (Name × List Path)) (n : Name) (f : Path)
    (pre : List Path) (hacc : ∀ g ∈ acc, g.2.Sublist pre) :
    ∀ g ∈ addToGroups acc n f, g.2.Sublist (pre ++ [f]) := by
  induction acc with
  | nil =>
    intro g hg
    simp only [addToGroups, List.mem_singleton] at hg
    subst hg
    show List.Sublist [f] (pre ++ [f])
    exact List.sublist_append_right pre [f]
  | cons g0 rest ih =>
    intro g hg
    rw [addToGroups] at hg
    by_cases h0 : g0.1 = n
    · rw [if_pos h0] at hg
      rcases List.mem_cons.mp hg with hgg | hgr
      · subst hgg
        show List.Sublist (g0.2 ++ [f]) (pre ++ [f])
        exact (hacc g0 (List.mem_cons_self _ _)).append (List.Sublist.refl [f])
      · exact (hacc g (List.mem_cons_of_mem _ hgr)).trans
          (List.sublist_append_left pre [f])
    · rw [if_neg h0] at hg
      rcases List.mem_cons.mp hg with hgg | hgr
      · subst hgg
        exact (hacc g (List.mem_cons_self _ _)).trans
          (List.sublist_append_left pre [f])
      · exact ih (fun g' hg' => hacc g' (List.mem_cons_of_mem _ hg')) g hgr

theorem groupByName_sublist (files : List Path) :
    ∀ g ∈ groupByName files, g.2.Sublist files := by
  unfold groupByName
  suffices h : ∀ (fs : List Path) (acc : List (Name × List Path)) (pre : List Path),
      (∀ g ∈ acc, g.2.Sublist pre) →
      ∀ g ∈ fs.foldl (fun acc f => addToGroups acc (f.getLastD []) f) acc,
      g.2.Sublist (pre ++ fs) by
    intro g hg
    simpa using h files [] [] (fun g' hg' => absurd hg' (List.not_mem_nil g')) g hg
  intro fs
  induction fs with
  | nil =>
    intro acc pre hacc g hg
    simpa using hacc g hg
  | cons f rest ih =>
    intro acc pre hacc g hg
    rw [List.foldl_cons] at hg
    have h2 := ih _ (pre ++ [f]) (addToGroups_sublist acc (f.getLastD []) f pre hacc) g hg
    simpa [List.append_assoc] using h2

/-- In an `rglob` collection order — every root-level file before every
deeper file — a root-level file is always the first member of its name
group: no member of a group's tail sits directly under the root. -/
theorem group_tail_not_root_len (root : Path) (files rfs dfs : List Path)
    (hnd : files.Nodup) (hsplit : files = rfs ++ dfs)
    (hrfs : ∀ f ∈ rfs, f.length = root.length + 1)
    (hdfs : ∀ f ∈ dfs, root.length + 1 < f.length)
    (hroot : ∀ f ∈ files, root <+: f) :
    ∀ g ∈ groupByName files, ∀ f ∈ g.2.tail, f.length ≠ root.length + 1 := by
  intro g hg fp hfp hlen
  have hsub := groupByName_sublist files g hg
  have hkey := groupByName_key files g hg
  cases hgl : g.2 with
  | nil =>
    rw [hgl] at hfp
    simp at hfp
  | cons f0 tl =>
    rw [hgl] at hfp
    simp only [List.tail_cons] at hfp
    have hf0mem : f0 ∈ g.2 := by rw [hgl]; exact List.mem_cons_self _ _
    have hfpmem : fp ∈ g.2 := by rw [hgl]; exact List.mem_cons_of_mem _ hfp
    have hfproot : root <+: fp := hroot fp (hsub.subset hfpmem)
    have hfp_eq : fp = root ++ [g.1] := by
      have h0 := eq_root_concat hfproot hlen
      rwa [hkey fp hfpmem] at h0
    have hpair : List.Sublist [f0, fp] files := by
      have h1 : List.Sublist [fp] tl := List.singleton_sublist.mpr hfp
      have h2 : List.Sublist [f0, fp] (f0 :: tl) := h1.cons₂ f0
      have h3 : List.Sublist [f0, fp] g.2 := by rw [hgl]; exact h2
      exact h3.trans hsub
    have hpair' := hpair
    rw [hsplit] at hpair'
    rcases List.sublist_append_iff.mp hpair' with ⟨x, y, hxy, hx, hy⟩
    rcases x with _ | ⟨u, x1⟩
    · rw [List.nil_append] at hxy
      subst hxy
      have hfd : fp ∈ dfs := hy.subset (by simp)
      have := hdfs fp hfd
      omega
    · rcases x1 with _ | ⟨v, x2⟩
      · rw [List.cons_append, List.nil_append] at hxy
        injection hxy with h1 h2
        subst h2
        have hfd : fp ∈ dfs := hy.subset (by simp)
        have := hdfs fp hfd
        omega
      · rcases x2 with _ | ⟨w, x3⟩
        · rw [List.cons_append, List.cons_append, List.nil_append] at hxy
          injection hxy with h1 hxy2
          injection hxy2 with h2 h3
          subst h1
          subst h2
          have hf0 : f0 ∈ rfs := hx.subset (List.mem_cons_self _ _)
          have hf0len := hrfs f0 hf0
          have hf0root : root <+: f0 := hroot f0 (hsub.subset hf0mem)
          have hf0eq : f0 = root ++ [g.1] := by
            have h0 := eq_root_concat hf0root hf0len
            rwa [hkey f0 hf0mem] at h0
          have hff : f0 = fp := hf0eq.trans hfp_eq.symm
          have hnd2 : List.Nodup [f0, fp] := hpair.nodup hnd
          rw [hff] at hnd2
          simp at hnd2
        · have hl := congrArg List.length hxy
          simp only [List.length_cons, List.length_append, List.length_nil] at hl
          omega

/-- C3 (amended): in one real (non-simulated) recursive flatten run
under the `rename` strategy whose files are collected in an order
`rglob` produces — all root-level files before all files of
subdirectories — the destinations of all `move_renamed` actions are
pairwise distinct and none of them existed on disk before the run
began. -/
theorem C3_rename_dests_distinct_and_fresh (root : Path) (disk0 : List Path)
    (files rfs dfs : List Path) (hnd : files.Nodup)
    (hmem : ∀ f ∈ files, f ∈ disk0)
    (hroot : ∀ f ∈ files, root <+: f)
    (hsplit : files = rfs ++ dfs)
    (hrfs : ∀ f ∈ rfs, f.length = root.length + 1)
    (hdfs : ∀ f ∈ dfs, root.length + 1 < f.length) :
    (moveRenamedDests (flattenMovesRename false root disk0 files).log).Nodup ∧
    ∀ r ∈ moveRenamedDests (flattenMovesRename false root disk0 files).log,
      r ∉ disk0 := by
  set K : List Path := disk0.filter (fun p => decide (p.length = root.length + 1))
    with hKdef
  have hKlen : ∀ p ∈ K, p.length = root.length + 1 := by
    intro p hp
    rw [hKdef] at hp
    exact of_decide_eq_true (List.mem_filter.mp hp).2
  have hKsub : ∀ p ∈ K, p ∈ disk0 := by
    intro p hp
    rw [hKdef] at hp
    exact (List.mem_filter.mp hp).1
  have hperm := groupByName_flatten_perm files
  have hstart : InvC3 root K ⟨disk0, [], []⟩
      (((groupByName files).map Prod.snd).flatten) := by
    refine ⟨?_, ?_, ?_, ?_, ?_, ?_, ?_⟩
    · intro r hr; cases hr
    · intro f hf; exact hmem f (hperm.mem_iff.mp hf)
    · exact List.nodup_nil
    · intro r hr; cases hr
    · exact hperm.nodup_iff.mpr hnd
    · intro p hp; exact hKsub p hp
    · intro r hr; cases hr
  have htail := group_tail_not_root_len root files rfs dfs hnd hsplit hrfs hdfs hroot
  have hkeys := groupByName_key files
  have hsubs := groupByName_sublist files
  have hfold : ∀ (gs : List (Name × List Path)) (st : FlatState),
      (∀ g ∈ gs, ∀ x ∈ g.2, x.getLastD [] = g.1 ∧ root <+: x) →
      (∀ g ∈ gs, ∀ f ∈ g.2.tail, f ∉ K) →
      InvC3 root K st ((gs.map Prod.snd).flatten) →
      InvC3 root K (gs.foldl (processGroupRename false root) st) [] := by
    intro gs
    induction gs with
    | nil => intro st _ _ h; exact h
    | cons g rest ih =>
      intro st hk ht h
      rw [List.foldl_cons]
      apply ih _ (fun g' hg' => hk g' (List.mem_cons_of_mem _ hg'))
        (fun g' hg' => ht g' (List.mem_cons_of_mem _ hg'))
      apply InvC3_group root K st g _ hKlen (hk g (List.mem_cons_self _ _))
        (ht g (List.mem_cons_self _ _))
      simpa using h
  have hfinal := hfold (groupByName files) ⟨disk0, [], []⟩
    (fun g hg x hx => ⟨hkeys g hg x hx, hroot x ((hsubs g hg).subset hx)⟩)
    (fun g hg f hf hfK => htail g hg f hf (hKlen f hfK))
    hstart
  refine ⟨hfinal.2.2.1, ?_⟩
  intro r hr hrd
  have h7 := hfinal.2.2.2.2.2.2 r hr
  apply h7.1
  rw [hKdef]
  exact List.mem_filter.mpr ⟨hrd, decide_eq_true h7.2⟩

/-- Witness for C3 (amended) on the real counterexample tree: the rename
destinations there are `x_1.txt` and `x_1_1.txt`, pairwise distinct and
absent from the pre-run disk, even though the full original claim fails
on the same run. -/
theorem C3_rename_dests_distinct_and_fresh_witness :
    (moveRenamedDests (flattenMovesRename false [] diskC3real filesC3real).log).Nodup ∧
    ∀ r ∈ moveRenamedDests (flattenMovesRename false [] diskC3real filesC3real).log,
      r ∉ diskC3real :=
  C3_rename_dests_distinct_and_fresh [] diskC3real filesC3real [] filesC3real
    (by decide) (by decide) (by decide) (by decide) (by decide) (by decide)

end LevelZap
